import Mathlib

/-!
Verification of the core game logic of rusty2048 (crate `core`).

Each Rust type and function of `src/core/src/{score,rng,board,game,ai}.rs`
is embedded as a Lean definition of the same name (snake_case kept where
Lean allows).  Rust `u32`/`usize` fields are modelled as `Nat`; the values
handled by the game stay far below `2^32`, so machine wrap-around is not
modelled.  Fallible Rust functions returning `GameResult` are embedded
with `Except GameError`.  The external `StdRng` of the `rand` crate is
modelled as an oracle stream of raw draws.
-/

set_option maxRecDepth 4096

namespace Rusty2048

/-- Game errors (src/core/src/error.rs, enum GameError). -/
inductive GameError where
  | invalidMove (msg : String)
  | gameOver
  | invalidPosition (row col : Nat)
  | invalidBoardSize (size : Nat)
  | noUndoAvailable
  | serialization (msg : String)
  | rngError (msg : String)
  | invalidOperation (msg : String)
deriving DecidableEq

/-- Score tracker (src/core/src/score.rs, struct Score). -/
structure Score where
  current : Nat
  best : Nat
  last_move : Nat
deriving DecidableEq

namespace Score

/-- Score::new -/
def new : Score := { current := 0, best := 0, last_move := 0 }

/-- Score::add_merge_points: records the merge in `last_move`, adds it to
`current`, and raises `best` when `current` overtakes it. -/
def add_merge_points (s : Score) (merged_value : Nat) : Score :=
  let s' : Score := { s with last_move := merged_value, current := s.current + merged_value }
  if s'.current > s'.best then { s' with best := s'.current } else s'

/-- Score::reset_current -/
def reset_current (s : Score) : Score := { s with current := 0, last_move := 0 }

/-- Score::reset_all -/
def reset_all (_s : Score) : Score := { current := 0, best := 0, last_move := 0 }

end Score

/-- The mutating operations of Score, reified to state lifetime invariants
over arbitrary call sequences. -/
inductive ScoreOp where
  | addMergePoints (v : Nat)
  | resetCurrent
  | resetAll
deriving DecidableEq

/-- Apply one reified Score operation. -/
def ScoreOp.apply (s : Score) : ScoreOp → Score
  | .addMergePoints v => s.add_merge_points v
  | .resetCurrent => s.reset_current
  | .resetAll => s.reset_all

/-- Pseudo-random generator (src/core/src/rng.rs, struct GameRng).
The external StdRng is modelled as an oracle: `stream` gives the raw
draws the generator produces and `idx` counts the draws consumed. -/
structure GameRng where
  stream : Nat → Nat
  idx : Nat

namespace GameRng

/-- Consume one raw draw of the underlying StdRng. -/
def advance (r : GameRng) : GameRng := { r with idx := r.idx + 1 }

/-- Models rand's StdRng::gen_range(0..max): a draw in [0, max).
`none` models the panic raised on an empty range (max = 0); otherwise
the next oracle value reduced modulo max is returned. -/
def std_gen_range (r : GameRng) (max : Nat) : Option (Nat × GameRng) :=
  if max = 0 then none else some (r.stream r.idx % max, r.advance)

/-- GameRng::gen_range: guards the empty range, returning 0 without
consuming a draw; otherwise delegates to the StdRng draw, which is
defined (`isSome`) because max is nonzero there. -/
def gen_range (r : GameRng) (max : Nat) : Nat × GameRng :=
  if max = 0 then (0, r) else (r.std_gen_range max).getD (0, r)

/-- GameRng::gen_tile_value: 2 or 4, chosen by gen_bool(0.9).  The
gen_bool draw is modelled as one oracle draw being < 9 modulo 10. -/
def gen_tile_value (r : GameRng) : Nat × GameRng :=
  if r.stream r.idx % 10 < 9 then (2, r.advance) else (4, r.advance)

end GameRng

/-- A fixed concrete oracle used to instantiate witnesses. -/
def rng0 : GameRng := { stream := fun _ => 0, idx := 0 }

/-- C7: For the Score type, best >= current holds after every operation
(new, add_merge_points, reset_current, reset_all), and across any
sequence of operations best never decreases except via reset_all. -/
theorem score_invariant_and_monotone (s : Score) (op : ScoreOp) (ops : List ScoreOp) :
    Score.new.best ≥ Score.new.current ∧
    (ScoreOp.apply s op).best ≥ (ScoreOp.apply s op).current ∧
    (op ≠ ScoreOp.resetAll → (ScoreOp.apply s op).best ≥ s.best) ∧
    ((∀ o ∈ ops, o ≠ ScoreOp.resetAll) → (ops.foldl ScoreOp.apply s).best ≥ s.best) := by
  refine ⟨le_refl 0, ?_, ?_, ?_⟩
  · cases op with
    | addMergePoints v =>
      simp only [ScoreOp.apply, Score.add_merge_points]
      split <;> simp <;> omega
    | resetCurrent => simp [ScoreOp.apply, Score.reset_current]
    | resetAll => simp [ScoreOp.apply, Score.reset_all]
  · intro hne
    cases op with
    | addMergePoints v =>
      simp only [ScoreOp.apply, Score.add_merge_points]
      split <;> simp <;> omega
    | resetCurrent => simp [ScoreOp.apply, Score.reset_current]
    | resetAll => exact absurd rfl hne
  · intro hall
    induction ops generalizing s with
    | nil => exact le_refl _
    | cons o rest ih =>
      have ho : o ≠ ScoreOp.resetAll := hall o (List.mem_cons_self o rest)
      have hrest : ∀ o' ∈ rest, o' ≠ ScoreOp.resetAll :=
        fun o' h' => hall o' (List.mem_cons_of_mem o h')
      have h1 : (ScoreOp.apply s o).best ≥ s.best := by
        cases o with
        | addMergePoints v =>
          simp only [ScoreOp.apply, Score.add_merge_points]
          split <;> simp <;> omega
        | resetCurrent => simp [ScoreOp.apply, Score.reset_current]
        | resetAll => exact absurd rfl ho
      calc s.best ≤ (ScoreOp.apply s o).best := h1
        _ ≤ ((rest).foldl ScoreOp.apply (ScoreOp.apply s o)).best := ih _ hrest

/-- Witness for C7 at a concrete score, operation and operation list. -/
theorem score_invariant_and_monotone_witness :
    (ScoreOp.apply ⟨3, 5, 2⟩ (ScoreOp.addMergePoints 4)).best ≥ (⟨3, 5, 2⟩ : Score).best ∧
    (([ScoreOp.addMergePoints 4, ScoreOp.resetCurrent].foldl ScoreOp.apply ⟨3, 5, 2⟩).best ≥
      (⟨3, 5, 2⟩ : Score).best) :=
  ⟨(score_invariant_and_monotone ⟨3, 5, 2⟩ (ScoreOp.addMergePoints 4) []).2.2.1 (by decide),
   (score_invariant_and_monotone ⟨3, 5, 2⟩ (ScoreOp.addMergePoints 4)
      [ScoreOp.addMergePoints 4, ScoreOp.resetCurrent]).2.2.2 (by decide)⟩

/-- C10: GameRng::gen_range is total: for max = 0 it returns 0 without
touching the underlying StdRng (instead of panicking on an empty range),
and for max > 0 the StdRng draw is defined and the result lies in
[0, max). -/
theorem gen_range_total_in_range (r : GameRng) (max : Nat) :
    (max = 0 → GameRng.gen_range r max = (0, r)) ∧
    (0 < max → (GameRng.std_gen_range r max).isSome = true ∧
      (GameRng.gen_range r max).1 < max) := by
  constructor
  · intro h
    simp [GameRng.gen_range, h]
  · intro h
    have hm : max ≠ 0 := by omega
    simp only [GameRng.gen_range, GameRng.std_gen_range, hm, if_false, Option.getD_some,
      Option.isSome_some, true_and]
    exact Nat.mod_lt _ h

/-- Witness for C10 at a concrete generator and bound. -/
theorem gen_range_total_in_range_witness :
    (GameRng.std_gen_range rng0 5).isSome = true ∧ (GameRng.gen_range rng0 5).1 < 5 :=
  (gen_range_total_in_range rng0 5).2 (by decide)

/-- A single tile (src/core/src/board.rs, struct Tile); value 0 is empty. -/
structure Tile where
  value : Nat
deriving DecidableEq

namespace Tile

/-- Tile::empty -/
def empty : Tile := { value := 0 }

/-- Tile::new -/
def new (value : Nat) : Tile := { value := value }

/-- Tile::is_empty -/
def is_empty (t : Tile) : Bool := t.value == 0

/-- Tile::can_merge_with -/
def can_merge_with (t other : Tile) : Bool :=
  !t.is_empty && !other.is_empty && t.value == other.value

/-- Tile::merge_with: doubles the tile when the merge is allowed and
returns the updated tile together with the awarded points (the new
value, or 0 when no merge happens). -/
def merge_with (t other : Tile) : Tile × Nat :=
  if t.can_merge_with other then ({ value := t.value * 2 }, t.value * 2) else (t, 0)

end Tile

/-- The game board (src/core/src/board.rs, struct Board): a size × size
grid of tiles stored row-major. -/
structure Board where
  tiles : List (List Tile)
  size : Nat
deriving DecidableEq

namespace Board

/-- The shape invariant Board::new establishes and every operation
preserves: `tiles` is a size × size grid. -/
def WF (b : Board) : Prop :=
  b.tiles.length = b.size ∧ ∀ row ∈ b.tiles, row.length = b.size

/-- Board::new -/
def new (size : Nat) : Except GameError Board :=
  if size = 0 then .error (.invalidBoardSize size)
  else .ok { tiles := List.replicate size (List.replicate size Tile.empty), size := size }

/-- Direct grid indexing self.tiles[row][col]; every use in the source
is in bounds. -/
def tile_at (b : Board) (row col : Nat) : Tile :=
  (b.tiles.getD row []).getD col Tile.empty

/-- Board::get_tile -/
def get_tile (b : Board) (row col : Nat) : Except GameError Tile :=
  if b.size ≤ row ∨ b.size ≤ col then .error (.invalidPosition row col)
  else .ok (b.tile_at row col)

/-- Board::set_tile -/
def set_tile (b : Board) (row col : Nat) (tile : Tile) : Except GameError Board :=
  if b.size ≤ row ∨ b.size ≤ col then .error (.invalidPosition row col)
  else .ok { b with tiles := b.tiles.set row ((b.tiles.getD row []).set col tile) }

/-- Board::empty_positions: row-major coordinates of the empty cells. -/
def empty_positions (b : Board) : List (Nat × Nat) :=
  (List.range b.size).flatMap (fun row =>
    ((List.range b.size).filter (fun col => (b.tile_at row col).is_empty)).map
      (fun col => (row, col)))

/-- Board::is_full -/
def is_full (b : Board) : Bool := b.empty_positions.isEmpty

/-- Board::has_valid_moves: true when an empty cell exists or some cell
can merge with its right or down neighbour (the early-return double
loop embedded as List.any over the row and column ranges). -/
def has_valid_moves (b : Board) : Bool :=
  if !b.is_full then true
  else
    (List.range b.size).any (fun row =>
      (List.range b.size).any (fun col =>
        (decide (col + 1 < b.size) &&
          (b.tile_at row col).can_merge_with (b.tile_at row (col + 1))) ||
        (decide (row + 1 < b.size) &&
          (b.tile_at row col).can_merge_with (b.tile_at (row + 1) col))))

/-- Board::max_tile: the maximum tile value, 0 for an empty grid. -/
def max_tile (b : Board) : Nat :=
  ((b.tiles.map (fun row => row.map Tile.value)).flatten).foldr Nat.max 0

/-- Two in-bounds orthogonally adjacent cells, in any of the four
directions (used to state the spec side of C5). -/
def adjacent (b : Board) (r c r' c' : Nat) : Prop :=
  r < b.size ∧ c < b.size ∧ r' < b.size ∧ c' < b.size ∧
  ((r' = r ∧ (c' = c + 1 ∨ c = c' + 1)) ∨ (c' = c ∧ (r' = r + 1 ∨ r = r' + 1)))

end Board

/-- Membership in Board::empty_positions. -/
theorem Board.mem_empty_positions (b : Board) (r c : Nat) :
    (r, c) ∈ b.empty_positions ↔
      r < b.size ∧ c < b.size ∧ (b.tile_at r c).is_empty = true := by
  simp only [Board.empty_positions, List.mem_flatMap, List.mem_map, List.mem_filter,
    List.mem_range]
  constructor
  · rintro ⟨row, hrow, col, ⟨hcol, hemp⟩, heq⟩
    cases heq
    exact ⟨hrow, hcol, hemp⟩
  · rintro ⟨hr, hc, hemp⟩
    exact ⟨r, hr, c, ⟨hc, hemp⟩, rfl⟩

/-- Board::is_full holds exactly when no cell is empty. -/
theorem Board.is_full_iff (b : Board) :
    b.is_full = true ↔ ∀ r < b.size, ∀ c < b.size, (b.tile_at r c).is_empty = false := by
  rw [Board.is_full, List.isEmpty_iff, List.eq_nil_iff_forall_not_mem]
  constructor
  · intro h r hr c hc
    cases hb : (b.tile_at r c).is_empty
    · rfl
    · exact absurd ((b.mem_empty_positions r c).mpr ⟨hr, hc, hb⟩) (h _)
  · rintro h ⟨r, c⟩ hp
    rw [b.mem_empty_positions] at hp
    obtain ⟨hr, hc, hemp⟩ := hp
    rw [h r hr c hc] at hemp
    exact Bool.noConfusion hemp

/-- A board that is not full has an empty in-bounds cell. -/
theorem Board.exists_empty_of_not_full (b : Board) (h : b.is_full = false) :
    ∃ r, r < b.size ∧ ∃ c, c < b.size ∧ (b.tile_at r c).is_empty = true := by
  rw [Board.is_full] at h
  rcases hl : b.empty_positions with _ | ⟨⟨r, c⟩, rest⟩
  · rw [hl] at h
    simp at h
  · have hm : (r, c) ∈ b.empty_positions := by
      rw [hl]
      exact List.mem_cons_self _ _
    rw [b.mem_empty_positions] at hm
    exact ⟨r, hm.1, c, hm.2.1, hm.2.2⟩

/-- Tile::can_merge_with is symmetric. -/
theorem Tile.can_merge_symm (t u : Tile) :
    t.can_merge_with u = true ↔ u.can_merge_with t = true := by
  rcases t with ⟨a⟩
  rcases u with ⟨b⟩
  simp only [Tile.can_merge_with, Tile.is_empty, Bool.and_eq_true, Bool.not_eq_true',
    beq_iff_eq, beq_eq_false_iff_ne]
  omega

/-- Canonical form of Board::has_valid_moves: an empty cell, a rightward
merge, or a downward merge exists. -/
theorem Board.has_valid_moves_true_iff (b : Board) :
    b.has_valid_moves = true ↔
      ((∃ r, r < b.size ∧ ∃ c, c < b.size ∧ (b.tile_at r c).is_empty = true) ∨
       (∃ r c, r < b.size ∧ c + 1 < b.size ∧
          (b.tile_at r c).can_merge_with (b.tile_at r (c + 1)) = true) ∨
       (∃ r c, r + 1 < b.size ∧ c < b.size ∧
          (b.tile_at r c).can_merge_with (b.tile_at (r + 1) c) = true)) := by
  rw [Board.has_valid_moves]
  cases hfull : b.is_full with
  | false =>
    simp only [Bool.not_false, if_true, true_iff]
    exact Or.inl (b.exists_empty_of_not_full hfull)
  | true =>
    simp only [Bool.not_true, Bool.false_eq_true, if_false, List.any_eq_true,
      List.mem_range, Bool.or_eq_true, Bool.and_eq_true, decide_eq_true_eq]
    constructor
    · rintro ⟨r, hr, c, hc, ⟨hc1, hm⟩ | ⟨hr1, hm⟩⟩
      · exact Or.inr (Or.inl ⟨r, c, hr, hc1, hm⟩)
      · exact Or.inr (Or.inr ⟨r, c, hr1, hc, hm⟩)
    · rintro (⟨r, hr, c, hc, hemp⟩ | ⟨r, c, hr, hc1, hm⟩ | ⟨r, c, hr1, hc, hm⟩)
      · rw [Board.is_full_iff] at hfull
        rw [hfull r hr c hc] at hemp
        exact Bool.noConfusion hemp
      · exact ⟨r, hr, c, by omega, Or.inl ⟨hc1, hm⟩⟩
      · exact ⟨r, by omega, c, hc, Or.inr ⟨hr1, hm⟩⟩

/-- C5: Board::has_valid_moves returns false iff the board has no empty
cell and no cell can merge with its right or its down neighbour;
equivalently, it returns true iff some cell is empty or some
orthogonally adjacent pair of tiles can merge. -/
theorem has_valid_moves_terminal_iff (b : Board) :
    (b.has_valid_moves = false ↔
      ((∀ r < b.size, ∀ c < b.size, (b.tile_at r c).is_empty = false) ∧
       (∀ r c, r < b.size → c + 1 < b.size →
          (b.tile_at r c).can_merge_with (b.tile_at r (c + 1)) = false) ∧
       (∀ r c, r + 1 < b.size → c < b.size →
          (b.tile_at r c).can_merge_with (b.tile_at (r + 1) c) = false))) ∧
    (b.has_valid_moves = true ↔
      ((∃ r, r < b.size ∧ ∃ c, c < b.size ∧ (b.tile_at r c).is_empty = true) ∨
       (∃ r c r' c', b.adjacent r c r' c' ∧
          (b.tile_at r c).can_merge_with (b.tile_at r' c') = true))) := by
  have hmain := b.has_valid_moves_true_iff
  constructor
  · constructor
    · intro hf
      have hnt : ¬ (b.has_valid_moves = true) := by simp [hf]
      rw [hmain] at hnt
      push_neg at hnt
      obtain ⟨h1, h2, h3⟩ := hnt
      refine ⟨?_, ?_, ?_⟩
      · intro r hr c hc
        simpa using h1 r hr c hc
      · intro r c hr hc1
        simpa using h2 r c hr hc1
      · intro r c hr1 hc
        simpa using h3 r c hr1 hc
    · rintro ⟨h1, h2, h3⟩
      cases hb : b.has_valid_moves
      · rfl
      · rw [hmain] at hb
        rcases hb with ⟨r, hr, c, hc, hemp⟩ | ⟨r, c, hr, hc1, hm⟩ | ⟨r, c, hr1, hc, hm⟩
        · rw [h1 r hr c hc] at hemp
          exact Bool.noConfusion hemp
        · rw [h2 r c hr hc1] at hm
          exact Bool.noConfusion hm
        · rw [h3 r c hr1 hc] at hm
          exact Bool.noConfusion hm
  · rw [hmain]
    constructor
    · rintro (he | ⟨r, c, hr, hc1, hm⟩ | ⟨r, c, hr1, hc, hm⟩)
      · exact Or.inl he
      · refine Or.inr ⟨r, c, r, c + 1, ?_, hm⟩
        unfold Board.adjacent
        exact ⟨hr, by omega, hr, hc1, Or.inl ⟨rfl, Or.inl rfl⟩⟩
      · refine Or.inr ⟨r, c, r + 1, c, ?_, hm⟩
        unfold Board.adjacent
        exact ⟨by omega, hc, hr1, hc, Or.inr ⟨rfl, Or.inl rfl⟩⟩
    · rintro (he | ⟨r, c, r', c', hadj, hm⟩)
      · exact Or.inl he
      · unfold Board.adjacent at hadj
        obtain ⟨hr, hc, hr', hc', horient⟩ := hadj
        rcases horient with ⟨he1, hco⟩ | ⟨he1, hro⟩
        · rw [he1] at hm hr'
          rcases hco with he2 | he2
          · rw [he2] at hm hc'
            exact Or.inr (Or.inl ⟨r, c, hr, hc', hm⟩)
          · rw [he2] at hm hc
            exact Or.inr (Or.inl ⟨r, c', hr, hc, (Tile.can_merge_symm _ _).mp hm⟩)
        · rw [he1] at hm hc'
          rcases hro with he2 | he2
          · rw [he2] at hm hr'
            exact Or.inr (Or.inr ⟨r, c, hr', hc, hm⟩)
          · rw [he2] at hm hr
            exact Or.inr (Or.inr ⟨r', c, hr, hc, (Tile.can_merge_symm _ _).mp hm⟩)

/-- Move direction (src/core/src/game.rs, enum Direction). -/
inductive Direction where
  | Up
  | Down
  | Left
  | Right
deriving DecidableEq

/-- Game state (src/core/src/game.rs, enum GameState). -/
inductive GameState where
  | Playing
  | Won
  | GameOver
deriving DecidableEq

/-!
Line collapse (src/core/src/game.rs lines 219-444).

Game::merge_row_left and Game::merge_col_up apply the same three passes
(compact, merge, re-compact) to a line read toward index 0, and
Game::merge_row_right / Game::merge_col_down are their mirror images
toward the last index.  A line is the list of the size tiles of one row
(resp. column) of the board, which is exactly the set of cells those
functions read and write through get_tile/set_tile; all their indices
are < size, so the `?` on get_tile/set_tile never propagates an error
and the passes are embedded as total functions on the line.
-/

/-- Working state of the merge pass: the line, the consumed-positions
vector `merged`, the score threaded through Score::add_merge_points,
the (ghost) log of merge points awarded in order, and the moved flag. -/
structure LineState where
  line : List Tile
  merged : List Bool
  score : Score
  log : List Nat
  moved : Bool
deriving DecidableEq

/-- Result of collapsing one line: the new line, the updated score, the
(ghost) log of merge points awarded in order, and the moved flag. -/
structure LineResult where
  line : List Tile
  score : Score
  log : List Nat
  moved : Bool
deriving DecidableEq

/-- Inner while-loop of the leftward compaction passes (lines 228-234):
with the moving tile at position t, repeatedly swap it with an empty
left neighbour.  The moved flag is set on every swap. -/
def slide_step (l : List Tile) (moved : Bool) : Nat → List Tile × Bool
  | 0 => (l, moved)
  | t + 1 =>
    if (l.getD t Tile.empty).is_empty then
      slide_step ((l.set (t + 1) Tile.empty).set t (l.getD (t + 1) Tile.empty)) true t
    else
      (l, moved)

/-- Leftward compaction pass (lines 225-236 and 259-270): for each
position from 1 upward, slide a nonempty tile over empty predecessors. -/
def compact_pass (l : List Tile) (moved : Bool) : List Tile × Bool :=
  (List.range' 1 (l.length - 1)).foldl
    (fun acc col =>
      if !(acc.1.getD col Tile.empty).is_empty then slide_step acc.1 acc.2 col
      else acc)
    (l, moved)

/-- One step of the forward merge pass at position col (lines 239-256):
skip when merged[col]; when the tiles at col and col+1 can merge,
double the one at col, empty col+1, award the points and mark col+1
consumed. -/
def merge_step (st : LineState) (col : Nat) : LineState :=
  if st.merged.getD col false then st
  else
    let current := st.line.getD col Tile.empty
    let next := st.line.getD (col + 1) Tile.empty
    if current.can_merge_with next then
      let m := current.merge_with next
      { line := (st.line.set col m.1).set (col + 1) Tile.empty,
        merged := st.merged.set (col + 1) true,
        score := st.score.add_merge_points m.2,
        log := st.log ++ [m.2],
        moved := true }
    else st

/-- Forward merge pass (lines 238-256): positions 0 .. size-2 in order,
with merged initialised to all-false. -/
def merge_pass_forward (l : List Tile) (s : Score) (moved : Bool) : LineState :=
  (List.range (l.length - 1)).foldl merge_step
    { line := l, merged := List.replicate l.length false, score := s, log := [], moved := moved }

/-- Game::merge_row_left / Game::merge_col_up on one line: compact,
merge, re-compact (lines 219-273 and 333-387). -/
def merge_line_forward (l : List Tile) (s : Score) : LineResult :=
  let p1 := compact_pass l false
  let st := merge_pass_forward p1.1 s p1.2
  let p3 := compact_pass st.line st.moved
  { line := p3.1, score := st.score, log := st.log, moved := p3.2 }

/-- Inner while-loop of the rightward compaction passes (lines 285-291):
with the moving tile at position t, repeatedly swap it with an empty
right neighbour; the fuel argument counts the remaining positions up to
size-1, so it encodes the guard target_col < size - 1. -/
def slide_step_right (l : List Tile) (moved : Bool) (t : Nat) : Nat → List Tile × Bool
  | 0 => (l, moved)
  | fuel + 1 =>
    if (l.getD (t + 1) Tile.empty).is_empty then
      slide_step_right ((l.set t Tile.empty).set (t + 1) (l.getD t Tile.empty)) true (t + 1) fuel
    else
      (l, moved)

/-- Rightward compaction pass (lines 282-293 and 316-327): positions
size-2 down to 0, sliding nonempty tiles over empty successors. -/
def compact_pass_right (l : List Tile) (moved : Bool) : List Tile × Bool :=
  ((List.range (l.length - 1)).reverse).foldl
    (fun acc col =>
      if !(acc.1.getD col Tile.empty).is_empty then
        slide_step_right acc.1 acc.2 col (acc.1.length - 1 - col)
      else acc)
    (l, moved)

/-- One step of the backward merge pass at position col (lines 296-313):
skip when merged[col]; when the tiles at col and col-1 can merge,
double the one at col, empty col-1, award the points and mark col-1
consumed. -/
def merge_step_right (st : LineState) (col : Nat) : LineState :=
  if st.merged.getD col false then st
  else
    let current := st.line.getD col Tile.empty
    let prev := st.line.getD (col - 1) Tile.empty
    if current.can_merge_with prev then
      let m := current.merge_with prev
      { line := (st.line.set col m.1).set (col - 1) Tile.empty,
        merged := st.merged.set (col - 1) true,
        score := st.score.add_merge_points m.2,
        log := st.log ++ [m.2],
        moved := true }
    else st

/-- Backward merge pass (lines 296-313): positions size-1 down to 1. -/
def merge_pass_backward (l : List Tile) (s : Score) (moved : Bool) : LineState :=
  ((List.range' 1 (l.length - 1)).reverse).foldl merge_step_right
    { line := l, merged := List.replicate l.length false, score := s, log := [], moved := moved }

/-- Game::merge_row_right / Game::merge_col_down on one line: compact,
merge, re-compact (lines 276-330 and 390-444). -/
def merge_line_backward (l : List Tile) (s : Score) : LineResult :=
  let p1 := compact_pass_right l false
  let st := merge_pass_backward p1.1 s p1.2
  let p3 := compact_pass_right st.line st.moved
  { line := p3.1, score := st.score, log := st.log, moved := p3.2 }

/-- Row `row` of the board: the tiles get_tile(row, col) for col < size,
in order. -/
def Board.row_at (b : Board) (row : Nat) : List Tile :=
  (List.range b.size).map (fun col => b.tile_at row col)

/-- Write a full row back (the set_tile(row, col, ·) writes of the merge
functions, coalesced). -/
def Board.set_row (b : Board) (row : Nat) (l : List Tile) : Board :=
  { b with tiles := b.tiles.set row l }

/-- Column `col` of the board: the tiles get_tile(row, col) for
row < size, in order. -/
def Board.col_at (b : Board) (col : Nat) : List Tile :=
  (List.range b.size).map (fun row => b.tile_at row col)

/-- Write a full column back (the set_tile(row, col, ·) writes of the
column merge functions, coalesced). -/
def Board.set_col (b : Board) (col : Nat) (l : List Tile) : Board :=
  { b with tiles := b.tiles.mapIdx (fun i row => row.set col (l.getD i Tile.empty)) }

/-- Accumulated state of Game::perform_move: the board, the score, the
(ghost) log of merge points in the order Score::add_merge_points is
called, and the moved flag accumulated with `|=`. -/
structure MoveState where
  board : Board
  score : Score
  log : List Nat
  moved : Bool

/-- Game::merge_row_left applied to row `row` of the accumulated state. -/
def merge_row_left (st : MoveState) (row : Nat) : MoveState :=
  let r := merge_line_forward (st.board.row_at row) st.score
  { board := st.board.set_row row r.line, score := r.score,
    log := st.log ++ r.log, moved := st.moved || r.moved }

/-- Game::merge_row_right applied to row `row` of the accumulated state. -/
def merge_row_right (st : MoveState) (row : Nat) : MoveState :=
  let r := merge_line_backward (st.board.row_at row) st.score
  { board := st.board.set_row row r.line, score := r.score,
    log := st.log ++ r.log, moved := st.moved || r.moved }

/-- Game::merge_col_up applied to column `col` of the accumulated state. -/
def merge_col_up (st : MoveState) (col : Nat) : MoveState :=
  let r := merge_line_forward (st.board.col_at col) st.score
  { board := st.board.set_col col r.line, score := r.score,
    log := st.log ++ r.log, moved := st.moved || r.moved }

/-- Game::merge_col_down applied to column `col` of the accumulated
state. -/
def merge_col_down (st : MoveState) (col : Nat) : MoveState :=
  let r := merge_line_backward (st.board.col_at col) st.score
  { board := st.board.set_col col r.line, score := r.score,
    log := st.log ++ r.log, moved := st.moved || r.moved }

/-- Game::perform_move (src/core/src/game.rs lines 188-216): apply the
directional merge to every row (resp. column) in order, OR-ing the
moved flags. -/
def perform_move (b : Board) (s : Score) (d : Direction) : MoveState :=
  let init : MoveState := { board := b, score := s, log := [], moved := false }
  match d with
  | .Left => (List.range b.size).foldl merge_row_left init
  | .Right => (List.range b.size).foldl merge_row_right init
  | .Up => (List.range b.size).foldl merge_col_up init
  | .Down => (List.range b.size).foldl merge_col_down init

/-- Game configuration (src/core/src/lib.rs, struct GameConfig). -/
structure GameConfig where
  board_size : Nat
  target_score : Nat
  allow_undo : Bool
  seed : Option Nat

/-- GameConfig::default -/
def GameConfig.default : GameConfig :=
  { board_size := 4, target_score := 2048, allow_undo := true, seed := none }

/-- The game controller (src/core/src/game.rs, struct Game).  The
wall-clock field start_time is outside the model: no verified claim
mentions it and it never feeds back into the game logic. -/
structure Game where
  board : Board
  score : Score
  rng : GameRng
  config : GameConfig
  state : GameState
  moves : Nat
  previous_board : Option Board
  previous_score : Option Score

/-- Game::add_random_tile (lines 172-185): pick a random empty cell and
give it a random tile value; a full board is left unchanged. -/
def add_random_tile (g : Game) : Except GameError Game :=
  let empty_positions := g.board.empty_positions
  if empty_positions.isEmpty then
    .ok g
  else
    let gr := g.rng.gen_range empty_positions.length
    let pos := empty_positions.getD gr.1 (0, 0)
    let gv := gr.2.gen_tile_value
    (g.board.set_tile pos.1 pos.2 (Tile.new gv.1)).map
      (fun b => { g with board := b, rng := gv.2 })

/-- Game::update_game_state (lines 447-459): two sequential independent
checks on the same board, first the win check, then the game-over
check. -/
def update_game_state (g : Game) : Game :=
  let g1 := if g.board.max_tile ≥ g.config.target_score ∧ g.state = GameState.Playing then
    { g with state := GameState.Won } else g
  if !g1.board.has_valid_moves then { g1 with state := GameState.GameOver } else g1

/-- Game::make_move (lines 109-134): reject unless Playing, save the
undo snapshot when allowed, perform the move, and on a moved move bump
the counter, spawn a random tile and re-evaluate the state. -/
def make_move (g : Game) (direction : Direction) : Except GameError (Bool × Game) :=
  if g.state ≠ GameState.Playing then
    .error GameError.gameOver
  else
    let g1 := if g.config.allow_undo then
      { g with previous_board := some g.board, previous_score := some g.score } else g
    let mv := perform_move g1.board g1.score direction
    let g2 := { g1 with board := mv.board, score := mv.score }
    if mv.moved then
      (add_random_tile { g2 with moves := g2.moves + 1 }).map
        (fun g3 => (true, update_game_state g3))
    else
      .ok (false, g2)

/-- Game::undo (lines 137-153): restore the saved snapshot, clearing it
(Option::take), decrement the move counter (saturating) and force the
Playing state. -/
def undo (g : Game) : Except GameError Game :=
  if !g.config.allow_undo then
    .error GameError.noUndoAvailable
  else
    match g.previous_board, g.previous_score with
    | some prev_board, some prev_score =>
      .ok { g with board := prev_board, score := prev_score,
                   moves := g.moves - 1, state := GameState.Playing,
                   previous_board := none, previous_score := none }
    | _, _ => .error GameError.noUndoAvailable

/-! ### Generic fold helpers -/

/-- A property preserved by every step is preserved by the fold. -/
theorem foldl_preserve {σ α : Type _} (step : σ → α → σ) (P : σ → Prop) (l : List α) (a : σ)
    (hP : P a) (hstep : ∀ b c, c ∈ l → P b → P (step b c)) :
    P (List.foldl step a l) := by
  induction l generalizing a with
  | nil => exact hP
  | cons c l ih =>
    exact ih (step a c) (hstep a c (List.mem_cons_self c l) hP)
      (fun b c' h' hb => hstep b c' (List.mem_cons_of_mem c h') hb)

/-- A monotone Boolean flag that is true stays true along the fold. -/
theorem foldl_flag_stays {σ α : Type _} (step : σ → α → σ) (flag : σ → Bool) (l : List α) (a : σ)
    (hmono : ∀ b c, c ∈ l → flag b = true → flag (step b c) = true)
    (ha : flag a = true) : flag (List.foldl step a l) = true :=
  foldl_preserve step (fun b => flag b = true) l a ha hmono

/-- If every step that leaves a monotone flag false is the identity, a
fold that ends with the flag false never changed the state. -/
theorem foldl_eq_init {σ α : Type _} (step : σ → α → σ) (flag : σ → Bool) (Q : σ → Prop)
    (l : List α) (a : σ) (hQ : Q a)
    (hmono : ∀ b c, c ∈ l → flag b = true → flag (step b c) = true)
    (hstep : ∀ b c, c ∈ l → Q b → flag (step b c) = false → step b c = b)
    (hflag : flag (List.foldl step a l) = false) :
    List.foldl step a l = a := by
  induction l generalizing a with
  | nil => rfl
  | cons c l ih =>
    have hmt : ∀ b c', c' ∈ l → flag b = true → flag (step b c') = true :=
      fun b c' h' => hmono b c' (List.mem_cons_of_mem c h')
    have h1 : flag (step a c) = false := by
      cases hf : flag (step a c)
      · rfl
      · rw [List.foldl_cons, foldl_flag_stays step flag l (step a c) hmt hf] at hflag
        exact Bool.noConfusion hflag
    have h2 : step a c = a := hstep a c (List.mem_cons_self c l) hQ h1
    rw [List.foldl_cons, h2] at hflag ⊢
    exact ih a hQ hmt (fun b c' h' => hstep b c' (List.mem_cons_of_mem c h')) hflag

/-! ### A move that moved nothing leaves the line unchanged -/

/-- slide_step keeps a true moved flag. -/
theorem slide_step_flag_mono (l : List Tile) (t : Nat) :
    (slide_step l true t).2 = true := by
  induction t generalizing l with
  | zero => rfl
  | succ t ih =>
    rw [slide_step]
    split
    · exact ih _
    · rfl

/-- If slide_step reports no movement, it did nothing and the flag was
already false. -/
theorem slide_step_not_moved (l : List Tile) (m : Bool) (t : Nat)
    (h : (slide_step l m t).2 = false) :
    (slide_step l m t).1 = l ∧ m = false := by
  induction t generalizing l m with
  | zero => exact ⟨rfl, h⟩
  | succ t _ =>
    by_cases hc : (l.getD t Tile.empty).is_empty = true
    · rw [slide_step, if_pos hc, slide_step_flag_mono] at h
      exact Bool.noConfusion h
    · rw [slide_step, if_neg hc] at h ⊢
      exact ⟨rfl, h⟩

/-- If the leftward compaction pass reports no movement, it did nothing. -/
theorem compact_pass_not_moved (l : List Tile) (m : Bool)
    (h : (compact_pass l m).2 = false) :
    (compact_pass l m).1 = l ∧ m = false := by
  have heq : compact_pass l m = (l, m) := by
    unfold compact_pass
    refine foldl_eq_init _ (fun acc => acc.2) (fun _ => True) _ _ trivial ?_ ?_ ?_
    · intro b c _ hb
      dsimp only at hb ⊢
      by_cases hc : (!(b.1.getD c Tile.empty).is_empty) = true
      · rw [if_pos hc, hb]
        exact slide_step_flag_mono _ _
      · rw [if_neg hc]
        exact hb
    · intro b c _ _ hf
      dsimp only at hf ⊢
      by_cases hc : (!(b.1.getD c Tile.empty).is_empty) = true
      · rw [if_pos hc] at hf ⊢
        obtain ⟨h1, h2⟩ := slide_step_not_moved _ _ _ hf
        have h3 : (slide_step b.1 b.2 c).2 = b.2 := by rw [hf, h2]
        calc slide_step b.1 b.2 c
            = ((slide_step b.1 b.2 c).1, (slide_step b.1 b.2 c).2) := rfl
          _ = (b.1, b.2) := by rw [h1, h3]
          _ = b := rfl
      · rw [if_neg hc]
    · unfold compact_pass at h
      exact h
  rw [heq] at h
  rw [heq]
  exact ⟨rfl, h⟩

/-- slide_step_right keeps a true moved flag. -/
theorem slide_step_right_flag_mono (l : List Tile) (t fuel : Nat) :
    (slide_step_right l true t fuel).2 = true := by
  induction fuel generalizing l t with
  | zero => rfl
  | succ fuel ih =>
    by_cases hc : (l.getD (t + 1) Tile.empty).is_empty = true
    · rw [slide_step_right, if_pos hc]
      exact ih _ _
    · rw [slide_step_right, if_neg hc]

/-- If slide_step_right reports no movement, it did nothing and the flag
was already false. -/
theorem slide_step_right_not_moved (l : List Tile) (m : Bool) (t fuel : Nat)
    (h : (slide_step_right l m t fuel).2 = false) :
    (slide_step_right l m t fuel).1 = l ∧ m = false := by
  induction fuel generalizing l m t with
  | zero => exact ⟨rfl, h⟩
  | succ fuel _ =>
    by_cases hc : (l.getD (t + 1) Tile.empty).is_empty = true
    · rw [slide_step_right, if_pos hc, slide_step_right_flag_mono] at h
      exact Bool.noConfusion h
    · rw [slide_step_right, if_neg hc] at h ⊢
      exact ⟨rfl, h⟩

/-- If the rightward compaction pass reports no movement, it did nothing. -/
theorem compact_pass_right_not_moved (l : List Tile) (m : Bool)
    (h : (compact_pass_right l m).2 = false) :
    (compact_pass_right l m).1 = l ∧ m = false := by
  have heq : compact_pass_right l m = (l, m) := by
    unfold compact_pass_right
    refine foldl_eq_init _ (fun acc => acc.2) (fun _ => True) _ _ trivial ?_ ?_ ?_
    · intro b c _ hb
      dsimp only at hb ⊢
      by_cases hc : (!(b.1.getD c Tile.empty).is_empty) = true
      · rw [if_pos hc, hb]
        exact slide_step_right_flag_mono _ _ _
      · rw [if_neg hc]
        exact hb
    · intro b c _ _ hf
      dsimp only at hf ⊢
      by_cases hc : (!(b.1.getD c Tile.empty).is_empty) = true
      · rw [if_pos hc] at hf ⊢
        obtain ⟨h1, h2⟩ := slide_step_right_not_moved _ _ _ _ hf
        have h3 : (slide_step_right b.1 b.2 c (b.1.length - 1 - c)).2 = b.2 := by rw [hf, h2]
        calc slide_step_right b.1 b.2 c (b.1.length - 1 - c)
            = ((slide_step_right b.1 b.2 c (b.1.length - 1 - c)).1,
               (slide_step_right b.1 b.2 c (b.1.length - 1 - c)).2) := rfl
          _ = (b.1, b.2) := by rw [h1, h3]
          _ = b := rfl
      · rw [if_neg hc]
    · unfold compact_pass_right at h
      exact h
  rw [heq] at h
  rw [heq]
  exact ⟨rfl, h⟩

/-- merge_step is the identity whenever its result has a false moved
flag, and it keeps a true flag. -/
theorem merge_step_cases (st : LineState) (c : Nat) :
    ((merge_step st c).moved = false → merge_step st c = st) ∧
    (st.moved = true → (merge_step st c).moved = true) := by
  unfold merge_step
  by_cases h1 : st.merged.getD c false = true
  · rw [if_pos h1]
    exact ⟨fun _ => rfl, fun h => h⟩
  · rw [if_neg h1]
    by_cases h2 : (st.line.getD c Tile.empty).can_merge_with
        (st.line.getD (c + 1) Tile.empty) = true
    · rw [if_pos h2]
      exact ⟨fun hf => Bool.noConfusion hf, fun _ => rfl⟩
    · rw [if_neg h2]
      exact ⟨fun _ => rfl, fun h => h⟩

/-- merge_step_right is the identity whenever its result has a false
moved flag, and it keeps a true flag. -/
theorem merge_step_right_cases (st : LineState) (c : Nat) :
    ((merge_step_right st c).moved = false → merge_step_right st c = st) ∧
    (st.moved = true → (merge_step_right st c).moved = true) := by
  unfold merge_step_right
  by_cases h1 : st.merged.getD c false = true
  · rw [if_pos h1]
    exact ⟨fun _ => rfl, fun h => h⟩
  · rw [if_neg h1]
    by_cases h2 : (st.line.getD c Tile.empty).can_merge_with
        (st.line.getD (c - 1) Tile.empty) = true
    · rw [if_pos h2]
      exact ⟨fun hf => Bool.noConfusion hf, fun _ => rfl⟩
    · rw [if_neg h2]
      exact ⟨fun _ => rfl, fun h => h⟩

/-- If the forward merge pass reports no movement, it changed nothing. -/
theorem merge_pass_forward_not_moved (l : List Tile) (s : Score) (m : Bool)
    (h : (merge_pass_forward l s m).moved = false) :
    merge_pass_forward l s m =
      { line := l, merged := List.replicate l.length false, score := s, log := [], moved := m } ∧
    m = false := by
  have heq := foldl_eq_init merge_step (fun st => st.moved) (fun _ => True)
    (List.range (l.length - 1))
    { line := l, merged := List.replicate l.length false, score := s, log := [], moved := m }
    trivial (fun b c _ => (merge_step_cases b c).2) (fun b c _ _ => (merge_step_cases b c).1) h
  unfold merge_pass_forward at h ⊢
  rw [heq] at h ⊢
  exact ⟨rfl, h⟩

/-- If the backward merge pass reports no movement, it changed nothing. -/
theorem merge_pass_backward_not_moved (l : List Tile) (s : Score) (m : Bool)
    (h : (merge_pass_backward l s m).moved = false) :
    merge_pass_backward l s m =
      { line := l, merged := List.replicate l.length false, score := s, log := [], moved := m } ∧
    m = false := by
  have heq := foldl_eq_init merge_step_right (fun st => st.moved) (fun _ => True)
    ((List.range' 1 (l.length - 1)).reverse)
    { line := l, merged := List.replicate l.length false, score := s, log := [], moved := m }
    trivial (fun b c _ => (merge_step_right_cases b c).2)
    (fun b c _ _ => (merge_step_right_cases b c).1) h
  unfold merge_pass_backward at h ⊢
  rw [heq] at h ⊢
  exact ⟨rfl, h⟩

/-- If Game::merge_row_left's three passes on a line report no movement,
the line, the score and the log are untouched. -/
theorem merge_line_forward_not_moved (l : List Tile) (s : Score)
    (h : (merge_line_forward l s).moved = false) :
    merge_line_forward l s = { line := l, score := s, log := [], moved := false } := by
  simp only [merge_line_forward] at h ⊢
  obtain ⟨_, hst⟩ := compact_pass_not_moved _ _ h
  obtain ⟨hmp, hp2⟩ := merge_pass_forward_not_moved _ _ _ hst
  obtain ⟨hp1, _⟩ := compact_pass_not_moved _ _ hp2
  rw [hp1, hp2] at hmp
  rw [hp1, hp2, hmp]
  dsimp only
  rw [hp1, hp2]

/-- If Game::merge_row_right's three passes on a line report no
movement, the line, the score and the log are untouched. -/
theorem merge_line_backward_not_moved (l : List Tile) (s : Score)
    (h : (merge_line_backward l s).moved = false) :
    merge_line_backward l s = { line := l, score := s, log := [], moved := false } := by
  simp only [merge_line_backward] at h ⊢
  obtain ⟨_, hst⟩ := compact_pass_right_not_moved _ _ h
  obtain ⟨hmp, hp2⟩ := merge_pass_backward_not_moved _ _ _ hst
  obtain ⟨hp1, _⟩ := compact_pass_right_not_moved _ _ hp2
  rw [hp1, hp2] at hmp
  rw [hp1, hp2, hmp]
  dsimp only
  rw [hp1, hp2]

/-- Mapping positional getD over the index range rebuilds the list. -/
theorem map_getD_range {α : Type _} (xs : List α) (d : α) :
    (List.range xs.length).map (fun i => xs.getD i d) = xs := by
  induction xs with
  | nil => rfl
  | cons x xs ih =>
    rw [List.length_cons, List.range_succ_eq_map, List.map_cons, List.map_map]
    exact congrArg (x :: ·) ih

/-- Writing back the element already at a position is the identity. -/
theorem set_getD_self {α : Type _} (xs : List α) (i : Nat) (d : α) (h : i < xs.length) :
    xs.set i (xs.getD i d) = xs := by
  induction xs generalizing i with
  | nil => simp at h
  | cons x xs ih =>
    cases i with
    | zero => rfl
    | succ i =>
      rw [List.length_cons, Nat.succ_lt_succ_iff] at h
      simp only [List.getD_cons_succ, List.set_cons_succ]
      exact congrArg (x :: ·) (ih i h)

/-- On a well-formed board, the extracted row is the stored row. -/
theorem Board.row_at_eq (b : Board) (row : Nat) (hwf : b.WF) (hrow : row < b.size) :
    b.row_at row = b.tiles.getD row [] := by
  obtain ⟨hlen, hrows⟩ := hwf
  have hmem : b.tiles.getD row [] ∈ b.tiles := by
    rw [List.getD_eq_getElem?_getD, List.getElem?_eq_getElem (by omega)]
    exact List.getElem_mem _
  have hrl : (b.tiles.getD row []).length = b.size := hrows _ hmem
  unfold Board.row_at Board.tile_at
  rw [← hrl]
  exact map_getD_range _ _

/-- Writing the extracted row back is the identity on well-formed
boards. -/
theorem Board.set_row_self (b : Board) (row : Nat) (hwf : b.WF) (hrow : row < b.size) :
    b.set_row row (b.row_at row) = b := by
  rw [Board.row_at_eq b row hwf hrow]
  obtain ⟨hlen, hrows⟩ := hwf
  unfold Board.set_row
  rw [List.getD_eq_getElem?_getD, List.getElem?_eq_getElem (by omega : row < b.tiles.length)]
  simp only [Option.getD_some]
  rw [← List.getD_eq_getElem (b.tiles) [] (by omega), set_getD_self _ _ _ (by omega)]

/-- getD into the extracted column. -/
theorem Board.col_at_getD (b : Board) (col i : Nat) (hi : i < b.size) :
    (b.col_at col).getD i Tile.empty = (b.tiles.getD i []).getD col Tile.empty := by
  unfold Board.col_at
  rw [List.getD_eq_getElem?_getD, List.getElem?_map, List.getElem?_range hi]
  rfl

/-- mapIdx with a pointwise-identity function is the identity. -/
theorem mapIdx_eq_self {α : Type _} (f : Nat → α → α) (xs : List α) (x0 : α)
    (h : ∀ i, i < xs.length → f i (xs.getD i x0) = xs.getD i x0) :
    xs.mapIdx f = xs := by
  induction xs generalizing f with
  | nil => rfl
  | cons x xs ih =>
    rw [List.mapIdx_cons]
    have h0 := h 0 (by simp)
    simp only [List.getD_cons_zero] at h0
    rw [h0]
    refine congrArg (x :: ·) (ih _ ?_)
    intro i hi
    have hs := h (i + 1) (by simpa using Nat.succ_lt_succ hi)
    simpa using hs

/-- Writing the extracted column back is the identity on well-formed
boards. -/
theorem Board.set_col_self (b : Board) (col : Nat) (hwf : b.WF) (hcol : col < b.size) :
    b.set_col col (b.col_at col) = b := by
  obtain ⟨hlen, hrows⟩ := hwf
  unfold Board.set_col
  have hmap : b.tiles.mapIdx (fun i row => row.set col ((b.col_at col).getD i Tile.empty))
      = b.tiles := by
    refine mapIdx_eq_self _ _ [] ?_
    intro i hi
    rw [Board.col_at_getD b col i (by omega)]
    have hmem : b.tiles.getD i [] ∈ b.tiles := by
      rw [List.getD_eq_getElem?_getD, List.getElem?_eq_getElem (by omega)]
      exact List.getElem_mem _
    exact set_getD_self _ _ _ (by rw [hrows _ hmem]; omega)
  rw [hmap]

/-- The moved flag accumulated by the directional merges is monotone. -/
theorem merge_row_left_moved_mono (st : MoveState) (row : Nat) (h : st.moved = true) :
    (merge_row_left st row).moved = true := by
  simp only [merge_row_left, h, Bool.true_or]

/-- If merge_row_left on a well-formed board reports no movement it is
the identity. -/
theorem merge_row_left_not_moved (st : MoveState) (row : Nat)
    (hwf : st.board.WF) (hrow : row < st.board.size)
    (h : (merge_row_left st row).moved = false) :
    merge_row_left st row = st := by
  obtain ⟨b0, s0, log0, m0⟩ := st
  simp only [merge_row_left] at h ⊢
  rw [Bool.or_eq_false_iff] at h
  obtain ⟨hm, hr⟩ := h
  rw [merge_line_forward_not_moved _ _ hr]
  dsimp only
  rw [Board.set_row_self _ _ hwf hrow, List.append_nil, hm, Bool.or_false]

/-- The moved flag accumulated by merge_row_right is monotone. -/
theorem merge_row_right_moved_mono (st : MoveState) (row : Nat) (h : st.moved = true) :
    (merge_row_right st row).moved = true := by
  simp only [merge_row_right, h, Bool.true_or]

/-- If merge_row_right on a well-formed board reports no movement it is
the identity. -/
theorem merge_row_right_not_moved (st : MoveState) (row : Nat)
    (hwf : st.board.WF) (hrow : row < st.board.size)
    (h : (merge_row_right st row).moved = false) :
    merge_row_right st row = st := by
  obtain ⟨b0, s0, log0, m0⟩ := st
  simp only [merge_row_right] at h ⊢
  rw [Bool.or_eq_false_iff] at h
  obtain ⟨hm, hr⟩ := h
  rw [merge_line_backward_not_moved _ _ hr]
  dsimp only
  rw [Board.set_row_self _ _ hwf hrow, List.append_nil, hm, Bool.or_false]

/-- The moved flag accumulated by merge_col_up is monotone. -/
theorem merge_col_up_moved_mono (st : MoveState) (col : Nat) (h : st.moved = true) :
    (merge_col_up st col).moved = true := by
  simp only [merge_col_up, h, Bool.true_or]

/-- If merge_col_up on a well-formed board reports no movement it is the
identity. -/
theorem merge_col_up_not_moved (st : MoveState) (col : Nat)
    (hwf : st.board.WF) (hcol : col < st.board.size)
    (h : (merge_col_up st col).moved = false) :
    merge_col_up st col = st := by
  obtain ⟨b0, s0, log0, m0⟩ := st
  simp only [merge_col_up] at h ⊢
  rw [Bool.or_eq_false_iff] at h
  obtain ⟨hm, hr⟩ := h
  rw [merge_line_forward_not_moved _ _ hr]
  dsimp only
  rw [Board.set_col_self _ _ hwf hcol, List.append_nil, hm, Bool.or_false]

/-- The moved flag accumulated by merge_col_down is monotone. -/
theorem merge_col_down_moved_mono (st : MoveState) (col : Nat) (h : st.moved = true) :
    (merge_col_down st col).moved = true := by
  simp only [merge_col_down, h, Bool.true_or]

/-- If merge_col_down on a well-formed board reports no movement it is
the identity. -/
theorem merge_col_down_not_moved (st : MoveState) (col : Nat)
    (hwf : st.board.WF) (hcol : col < st.board.size)
    (h : (merge_col_down st col).moved = false) :
    merge_col_down st col = st := by
  obtain ⟨b0, s0, log0, m0⟩ := st
  simp only [merge_col_down] at h ⊢
  rw [Bool.or_eq_false_iff] at h
  obtain ⟨hm, hr⟩ := h
  rw [merge_line_backward_not_moved _ _ hr]
  dsimp only
  rw [Board.set_col_self _ _ hwf hcol, List.append_nil, hm, Bool.or_false]

/-- If Game::perform_move reports no movement, the board and the score
are untouched and no merge points were logged. -/
theorem perform_move_not_moved (b : Board) (s : Score) (d : Direction)
    (hwf : b.WF) (h : (perform_move b s d).moved = false) :
    perform_move b s d = { board := b, score := s, log := [], moved := false } := by
  have hQ : (fun st : MoveState => st.board.WF ∧ st.board.size = b.size)
      { board := b, score := s, log := [], moved := false } := ⟨hwf, rfl⟩
  cases d with
  | Left =>
    simp only [perform_move] at h ⊢
    exact foldl_eq_init _ (fun st => st.moved) (fun st : MoveState => st.board.WF ∧ st.board.size = b.size) _ _ hQ
      (fun st c _ hb => merge_row_left_moved_mono st c hb)
      (fun st c hc hq hf =>
        merge_row_left_not_moved st c hq.1
          (by rw [hq.2]; exact List.mem_range.mp hc) hf)
      h
  | Right =>
    simp only [perform_move] at h ⊢
    exact foldl_eq_init _ (fun st => st.moved) (fun st : MoveState => st.board.WF ∧ st.board.size = b.size) _ _ hQ
      (fun st c _ hb => merge_row_right_moved_mono st c hb)
      (fun st c hc hq hf =>
        merge_row_right_not_moved st c hq.1
          (by rw [hq.2]; exact List.mem_range.mp hc) hf)
      h
  | Up =>
    simp only [perform_move] at h ⊢
    exact foldl_eq_init _ (fun st => st.moved) (fun st : MoveState => st.board.WF ∧ st.board.size = b.size) _ _ hQ
      (fun st c _ hb => merge_col_up_moved_mono st c hb)
      (fun st c hc hq hf =>
        merge_col_up_not_moved st c hq.1
          (by rw [hq.2]; exact List.mem_range.mp hc) hf)
      h
  | Down =>
    simp only [perform_move] at h ⊢
    exact foldl_eq_init _ (fun st => st.moved) (fun st : MoveState => st.board.WF ∧ st.board.size = b.size) _ _ hQ
      (fun st c _ hb => merge_col_down_moved_mono st c hb)
      (fun st c hc hq hf =>
        merge_col_down_not_moved st c hq.1
          (by rw [hq.2]; exact List.mem_range.mp hc) hf)
      h

/-- Inversion for Except.map producing ok. -/
theorem except_map_ok {ε α β : Type _} (e : Except ε α) (f : α → β) (b : β)
    (h : e.map f = .ok b) : ∃ a, e = .ok a ∧ f a = b := by
  cases e with
  | error e => exact Except.noConfusion h
  | ok a =>
    refine ⟨a, rfl, ?_⟩
    simpa [Except.map] using h

/-- Game::add_random_tile only touches the board and the rng. -/
theorem add_random_tile_frame (g g' : Game) (h : add_random_tile g = .ok g') :
    g'.score = g.score ∧ g'.state = g.state ∧ g'.moves = g.moves ∧
    g'.config = g.config ∧ g'.previous_board = g.previous_board ∧
    g'.previous_score = g.previous_score := by
  simp only [add_random_tile] at h
  split at h
  · cases h
    exact ⟨rfl, rfl, rfl, rfl, rfl, rfl⟩
  · obtain ⟨b1, _, hf⟩ := except_map_ok _ _ _ h
    rw [← hf]
    exact ⟨rfl, rfl, rfl, rfl, rfl, rfl⟩

/-- Game::update_game_state only touches the state. -/
theorem update_game_state_frame (g : Game) :
    (update_game_state g).board = g.board ∧ (update_game_state g).score = g.score ∧
    (update_game_state g).moves = g.moves ∧ (update_game_state g).config = g.config ∧
    (update_game_state g).previous_board = g.previous_board ∧
    (update_game_state g).previous_score = g.previous_score ∧
    (update_game_state g).rng = g.rng := by
  simp only [update_game_state]
  split
  · split
    · exact ⟨rfl, rfl, rfl, rfl, rfl, rfl, rfl⟩
    · exact ⟨rfl, rfl, rfl, rfl, rfl, rfl, rfl⟩
  · split
    · exact ⟨rfl, rfl, rfl, rfl, rfl, rfl, rfl⟩
    · exact ⟨rfl, rfl, rfl, rfl, rfl, rfl, rfl⟩

/-- The state Game::update_game_state computes from a Playing game: the
game-over check runs after, and thus overrides, the win check. -/
theorem update_game_state_state (g : Game) (hp : g.state = GameState.Playing) :
    (update_game_state g).state =
      (if g.board.has_valid_moves = false then GameState.GameOver
       else if g.board.max_tile ≥ g.config.target_score then GameState.Won
       else GameState.Playing) := by
  simp only [update_game_state]
  by_cases h1 : g.board.max_tile ≥ g.config.target_score ∧ g.state = GameState.Playing
  · rw [if_pos h1]
    cases h2 : g.board.has_valid_moves with
    | false =>
      rw [if_pos (by simp [h2]), if_pos rfl]
    | true =>
      rw [if_neg (by simp [h2]), if_neg (by simp), if_pos h1.1]
  · rw [if_neg h1]
    have h3 : ¬ g.board.max_tile ≥ g.config.target_score := fun hc => h1 ⟨hc, hp⟩
    cases h2 : g.board.has_valid_moves with
    | false =>
      rw [if_pos (by simp [h2]), if_pos rfl]
    | true =>
      rw [if_neg (by simp [h2]), if_neg (by simp), if_neg h3]
      exact hp

instance (b : Board) : Decidable b.WF := by
  unfold Board.WF
  infer_instance

/-- C6: if make_move returns Ok(false) the move was a no-op: the board,
the score (current, best, last_move), the move counter and the state
are exactly as before, and the rng was not consulted (no tile spawned). -/
theorem make_move_noop_frame (g : Game) (d : Direction) (g' : Game)
    (hwf : g.board.WF)
    (h : make_move g d = .ok (false, g')) :
    g'.board = g.board ∧ g'.score = g.score ∧ g'.moves = g.moves ∧
    g'.state = g.state ∧ g'.rng = g.rng := by
  simp only [make_move] at h
  by_cases hs : g.state ≠ GameState.Playing
  · rw [if_pos hs] at h
    exact Except.noConfusion h
  · rw [if_neg hs] at h
    by_cases hu : g.config.allow_undo = true
    · rw [if_pos hu] at h
      dsimp only at h
      split at h
      · obtain ⟨g3, _, hf⟩ := except_map_ok _ _ _ h
        simp at hf
      · injection h with h1
        injection h1 with h2 h3
        subst h3
        have hm : (perform_move g.board g.score d).moved = false := by
          cases hx : (perform_move g.board g.score d).moved
          · rfl
          · exact absurd hx (by assumption)
        rw [perform_move_not_moved g.board g.score d hwf hm]
        exact ⟨rfl, rfl, rfl, rfl, rfl⟩
    · rw [if_neg hu] at h
      split at h
      · obtain ⟨g3, _, hf⟩ := except_map_ok _ _ _ h
        simp at hf
      · injection h with h1
        injection h1 with h2 h3
        subst h3
        have hm : (perform_move g.board g.score d).moved = false := by
          cases hx : (perform_move g.board g.score d).moved
          · rfl
          · exact absurd hx (by assumption)
        rw [perform_move_not_moved g.board g.score d hwf hm]
        exact ⟨rfl, rfl, rfl, rfl, rfl⟩

/-- A concrete Playing game on which a Left move is blocked. -/
def g6 : Game :=
  { board := { tiles := [[⟨2⟩, ⟨4⟩], [⟨0⟩, ⟨0⟩]], size := 2 }, score := ⟨10, 20, 2⟩,
    rng := rng0,
    config := { board_size := 2, target_score := 2048, allow_undo := false, seed := none },
    state := .Playing, moves := 3, previous_board := none, previous_score := none }

/-- The game g6's make_move Left result. -/
def g6res : Game := ((make_move g6 .Left).toOption.getD (true, g6)).2

/-- Witness for C6: make_move g6 Left returns Ok(false) and the frame
equalities hold at that concrete game. -/
theorem make_move_noop_frame_witness :
    g6res.board = g6.board ∧ g6res.score = g6.score ∧ g6res.moves = g6.moves ∧
    g6res.state = g6.state ∧ g6res.rng = g6.rng :=
  make_move_noop_frame g6 .Left g6res (by decide) (by rfl)

/-- C1 (amended): after a make_move that moved, the two checks of
update_game_state run in sequence as independent ifs, so the game-over
check overrides the win check: the state is GameOver whenever the
post-spawn board has no valid moves, even if target_score was reached
on that same move; Won results only when valid moves remain. -/
theorem make_move_state_after (g : Game) (d : Direction) (g' : Game)
    (h : make_move g d = .ok (true, g')) :
    g'.state =
      (if g'.board.has_valid_moves = false then GameState.GameOver
       else if g'.board.max_tile ≥ g.config.target_score then GameState.Won
       else GameState.Playing) := by
  simp only [make_move] at h
  by_cases hs : g.state ≠ GameState.Playing
  · rw [if_pos hs] at h
    exact Except.noConfusion h
  · rw [if_neg hs] at h
    push_neg at hs
    by_cases hu : g.config.allow_undo = true
    · rw [if_pos hu] at h
      dsimp only at h
      split at h
      · obtain ⟨g3, hg3, hf⟩ := except_map_ok _ _ _ h
        have hf2 : update_game_state g3 = g' := congrArg Prod.snd hf
        have hfr := add_random_tile_frame _ _ hg3
        have hstate3 : g3.state = GameState.Playing := by
          rw [hfr.2.1]
          exact hs
        have hcfg : g3.config = g.config := hfr.2.2.2.1
        have hb := (update_game_state_frame g3).1
        subst hf2
        rw [hb, update_game_state_state g3 hstate3, hcfg]
      · injection h with h1
        injection h1 with h2 h3
        exact Bool.noConfusion h2
    · rw [if_neg hu] at h
      split at h
      · obtain ⟨g3, hg3, hf⟩ := except_map_ok _ _ _ h
        have hf2 : update_game_state g3 = g' := congrArg Prod.snd hf
        have hfr := add_random_tile_frame _ _ hg3
        have hstate3 : g3.state = GameState.Playing := by
          rw [hfr.2.1]
          exact hs
        have hcfg : g3.config = g.config := hfr.2.2.2.1
        have hb := (update_game_state_frame g3).1
        subst hf2
        rw [hb, update_game_state_state g3 hstate3, hcfg]
      · injection h with h1
        injection h1 with h2 h3
        exact Bool.noConfusion h2

/-- A concrete Playing game (target 8) where one Left move both reaches
the target and leaves a dead board. -/
def g1c : Game :=
  { board := { tiles := [[⟨4⟩, ⟨4⟩], [⟨2⟩, ⟨16⟩]], size := 2 }, score := Score.new,
    rng := rng0,
    config := { board_size := 2, target_score := 8, allow_undo := false, seed := none },
    state := .Playing, moves := 0, previous_board := none, previous_score := none }

/-- Counterexample to C1 as stated: on g1c the Left move moves tiles,
the post-spawn board reaches max_tile 16 ≥ target 8 from Playing, yet
the final state is GameOver, not Won, because the game-over check runs
unconditionally after the win check. -/
theorem make_move_win_dead_board_cex :
    (make_move g1c .Left).map (fun p => (p.1, p.2.state)) = .ok (true, GameState.GameOver) ∧
    (make_move g1c .Left).map (fun p => p.2.board.max_tile) = .ok 16 ∧
    g1c.config.target_score = 8 ∧ g1c.state = GameState.Playing ∧
    (make_move g1c .Left).map (fun p => p.2.board.has_valid_moves) = .ok false ∧
    GameState.GameOver ≠ GameState.Won :=
  ⟨rfl, rfl, rfl, rfl, rfl, by decide⟩

/-- A concrete game for the C1 witness: the Left move merges but leaves
a live board below the target. -/
def g1w : Game :=
  { board := { tiles := [[⟨2⟩, ⟨2⟩], [⟨0⟩, ⟨0⟩]], size := 2 }, score := Score.new,
    rng := rng0,
    config := { board_size := 2, target_score := 2048, allow_undo := false, seed := none },
    state := .Playing, moves := 0, previous_board := none, previous_score := none }

/-- The game g1w's make_move Left result. -/
def g1wres : Game := ((make_move g1w .Left).toOption.getD (false, g1w)).2

/-- Witness for C1 (amended) at the concrete game g1w. -/
theorem make_move_state_after_witness :
    g1wres.state =
      (if g1wres.board.has_valid_moves = false then GameState.GameOver
       else if g1wres.board.max_tile ≥ g1w.config.target_score then GameState.Won
       else GameState.Playing) :=
  make_move_state_after g1w .Left g1wres (by rfl)

/-- The game Game::undo produces from a saved snapshot: the snapshot
board and score, the move counter decremented (saturating), the state
forced to Playing and the snapshot cleared (Option::take). -/
def undo_result (g : Game) (pb : Board) (ps : Score) : Game :=
  { g with board := pb, score := ps, moves := g.moves - 1,
           state := GameState.Playing, previous_board := none,
           previous_score := none }

/-- Game::undo succeeds on a saved snapshot: it restores board and
score, clears the snapshot, decrements moves and forces Playing. -/
theorem undo_ok (g : Game) (pb : Board) (ps : Score)
    (hu : g.config.allow_undo = true)
    (hpb : g.previous_board = some pb) (hps : g.previous_score = some ps) :
    undo g = .ok (undo_result g pb ps) := by
  unfold undo undo_result
  rw [hu, hpb, hps]
  rfl

/-- Game::undo fails with NoUndoAvailable when no snapshot is saved. -/
theorem undo_none (g : Game) (hpb : g.previous_board = none) :
    undo g = .error GameError.noUndoAvailable := by
  unfold undo
  split
  · rfl
  · rw [hpb]

/-- C2 (amended): for a Game with allow_undo on, a make_move that moved
at least one tile followed by undo restores board, score.current and
the move counter exactly, and a second undo immediately after fails
with NoUndoAvailable.  (A no-op make_move still overwrites the snapshot,
and undo after it decrements the move counter: see the counterexample.) -/
theorem make_move_undo_roundtrip (g : Game) (d : Direction) (g' : Game)
    (hu : g.config.allow_undo = true)
    (h : make_move g d = .ok (true, g')) :
    ∃ g'', undo g' = .ok g'' ∧ g''.board = g.board ∧
      g''.score.current = g.score.current ∧ g''.moves = g.moves ∧
      undo g'' = .error GameError.noUndoAvailable := by
  simp only [make_move] at h
  by_cases hs : g.state ≠ GameState.Playing
  · rw [if_pos hs] at h
    exact Except.noConfusion h
  · rw [if_neg hs] at h
    rw [if_pos hu] at h
    dsimp only at h
    split at h
    · obtain ⟨g3, hg3, hf⟩ := except_map_ok _ _ _ h
      have hf2 : update_game_state g3 = g' := congrArg Prod.snd hf
      have hfr := add_random_tile_frame _ _ hg3
      have hup := update_game_state_frame g3
      subst hf2
      have hcfg : (update_game_state g3).config = g.config := by
        rw [hup.2.2.2.1, hfr.2.2.2.1]
      have hpb : (update_game_state g3).previous_board = some g.board := by
        rw [hup.2.2.2.2.1, hfr.2.2.2.2.1]
      have hps : (update_game_state g3).previous_score = some g.score := by
        rw [hup.2.2.2.2.2.1, hfr.2.2.2.2.2]
      have hmoves : (update_game_state g3).moves = g.moves + 1 := by
        rw [hup.2.2.1, hfr.2.2.1]
      refine ⟨_, undo_ok _ _ _ (by rw [hcfg]; exact hu) hpb hps, rfl, rfl, ?_, ?_⟩
      · show (update_game_state g3).moves - 1 = g.moves
        rw [hmoves]
        omega
      · exact undo_none _ rfl
    · injection h with h1
      injection h1 with h2 h3
      exact Bool.noConfusion h2

/-- A concrete Playing game with allow_undo and moves = 1 on which Left
is a no-op. -/
def g2c : Game :=
  { board := { tiles := [[⟨2⟩, ⟨4⟩], [⟨0⟩, ⟨0⟩]], size := 2 }, score := ⟨10, 20, 2⟩,
    rng := rng0,
    config := { board_size := 2, target_score := 2048, allow_undo := true, seed := none },
    state := .Playing, moves := 1, previous_board := none, previous_score := none }

/-- Counterexample to C2 as stated: on g2c (allow_undo, Playing) the
Left move returns Ok(false), yet undo afterwards succeeds and lowers
the move counter from 1 to 0, so the counter is not restored to its
pre-move value. -/
theorem undo_after_noop_move_cex :
    (make_move g2c .Left).map (fun p => p.1) = .ok false ∧
    g2c.moves = 1 ∧
    ((make_move g2c .Left).bind (fun p => undo p.2)).map (fun g => g.moves) = .ok 0 ∧
    (0 : Nat) ≠ 1 :=
  ⟨rfl, rfl, rfl, by decide⟩

/-- A concrete game with allow_undo whose Left move merges. -/
def g2w : Game :=
  { board := { tiles := [[⟨2⟩, ⟨2⟩], [⟨0⟩, ⟨0⟩]], size := 2 }, score := ⟨10, 20, 2⟩,
    rng := rng0,
    config := { board_size := 2, target_score := 2048, allow_undo := true, seed := none },
    state := .Playing, moves := 5, previous_board := none, previous_score := none }

/-- The game g2w's make_move Left result. -/
def g2wres : Game := ((make_move g2w .Left).toOption.getD (false, g2w)).2

/-- Witness for C2 (amended) at the concrete game g2w. -/
theorem make_move_undo_roundtrip_witness :
    ∃ g'', undo g2wres = .ok g'' ∧ g''.board = g2w.board ∧
      g''.score.current = g2w.score.current ∧ g''.moves = g2w.moves ∧
      undo g'' = .error GameError.noUndoAvailable :=
  make_move_undo_roundtrip g2w .Left g2wres (by rfl) (by rfl)

/-- Sum of the tile values on a line. -/
def line_sum (l : List Tile) : Nat := (l.map Tile.value).sum

/-- Setting a position trades its old value for the new one in the sum. -/
theorem line_sum_set (l : List Tile) (i : Nat) (x : Tile) (h : i < l.length) :
    line_sum (l.set i x) + (l.getD i Tile.empty).value = line_sum l + x.value := by
  induction l generalizing i with
  | nil => simp at h
  | cons a l ih =>
    cases i with
    | zero =>
      simp only [List.set_cons_zero, line_sum, List.map_cons, List.sum_cons,
        List.getD_cons_zero]
      omega
    | succ i =>
      rw [List.length_cons, Nat.succ_lt_succ_iff] at h
      simp only [List.set_cons_succ, line_sum, List.map_cons, List.sum_cons,
        List.getD_cons_succ]
      have := ih i h
      simp only [line_sum] at this
      omega

/-- Swapping a tile with an empty left neighbour conserves the sum. -/
theorem slide_swap_sum (l : List Tile) (t : Nat)
    (he : (l.getD t Tile.empty).is_empty = true) :
    line_sum ((l.set (t + 1) Tile.empty).set t (l.getD (t + 1) Tile.empty)) = line_sum l := by
  have hev : (l.getD t Tile.empty).value = 0 := by
    simpa [Tile.is_empty] using he
  have he0 : Tile.empty.value = 0 := rfl
  by_cases ht1 : t + 1 < l.length
  · have ht : t < l.length := by omega
    have h1 := line_sum_set l (t + 1) Tile.empty ht1
    have h2 := line_sum_set (l.set (t + 1) Tile.empty) t (l.getD (t + 1) Tile.empty)
      (by simpa using ht)
    have h3 : (l.set (t + 1) Tile.empty).getD t Tile.empty = l.getD t Tile.empty := by
      rw [List.getD_eq_getElem?_getD, List.getElem?_set_ne (by omega),
        ← List.getD_eq_getElem?_getD]
    rw [h3] at h2
    omega
  · have hs1 : l.set (t + 1) Tile.empty = l := List.set_eq_of_length_le (by omega)
    have hg1 : l.getD (t + 1) Tile.empty = Tile.empty := by
      rw [List.getD_eq_getElem?_getD, List.getElem?_eq_none (by omega)]
      rfl
    rw [hs1, hg1]
    by_cases ht : t < l.length
    · have h2 := line_sum_set l t Tile.empty ht
      omega
    · rw [List.set_eq_of_length_le (by omega)]

/-- The leftward inner slide loop conserves the sum. -/
theorem slide_step_sum (l : List Tile) (m : Bool) (t : Nat) :
    line_sum (slide_step l m t).1 = line_sum l := by
  induction t generalizing l m with
  | zero => rfl
  | succ t ih =>
    by_cases hc : (l.getD t Tile.empty).is_empty = true
    · rw [slide_step, if_pos hc, ih]
      exact slide_swap_sum l t hc
    · rw [slide_step, if_neg hc]

/-- The leftward compaction pass conserves the sum. -/
theorem compact_pass_sum (l : List Tile) (m : Bool) :
    line_sum (compact_pass l m).1 = line_sum l := by
  unfold compact_pass
  refine foldl_preserve _ (fun acc : List Tile × Bool => line_sum acc.1 = line_sum l) _ _ rfl ?_
  intro b c _ hb
  dsimp only at hb ⊢
  by_cases hc : (!(b.1.getD c Tile.empty).is_empty) = true
  · rw [if_pos hc, slide_step_sum]
    exact hb
  · rw [if_neg hc]
    exact hb

/-- Swapping a tile with an empty right neighbour conserves the sum. -/
theorem slide_swap_sum_right (l : List Tile) (t : Nat) (ht1 : t + 1 < l.length)
    (he : (l.getD (t + 1) Tile.empty).is_empty = true) :
    line_sum ((l.set t Tile.empty).set (t + 1) (l.getD t Tile.empty)) = line_sum l := by
  have hev : (l.getD (t + 1) Tile.empty).value = 0 := by
    simpa [Tile.is_empty] using he
  have he0 : Tile.empty.value = 0 := rfl
  have ht : t < l.length := by omega
  have h1 := line_sum_set l t Tile.empty ht
  have h2 := line_sum_set (l.set t Tile.empty) (t + 1) (l.getD t Tile.empty)
    (by simpa using ht1)
  have h3 : (l.set t Tile.empty).getD (t + 1) Tile.empty = l.getD (t + 1) Tile.empty := by
    rw [List.getD_eq_getElem?_getD, List.getElem?_set_ne (by omega),
      ← List.getD_eq_getElem?_getD]
  rw [h3] at h2
  omega

/-- The slide loops preserve the line length. -/
theorem slide_step_length (l : List Tile) (m : Bool) (t : Nat) :
    (slide_step l m t).1.length = l.length := by
  induction t generalizing l m with
  | zero => rfl
  | succ t ih =>
    by_cases hc : (l.getD t Tile.empty).is_empty = true
    · rw [slide_step, if_pos hc, ih]
      simp
    · rw [slide_step, if_neg hc]

/-- The rightward slide loop preserves the line length. -/
theorem slide_step_right_length (l : List Tile) (m : Bool) (t fuel : Nat) :
    (slide_step_right l m t fuel).1.length = l.length := by
  induction fuel generalizing l m t with
  | zero => rfl
  | succ fuel ih =>
    by_cases hc : (l.getD (t + 1) Tile.empty).is_empty = true
    · rw [slide_step_right, if_pos hc, ih]
      simp
    · rw [slide_step_right, if_neg hc]

/-- The rightward inner slide loop conserves the sum while its target
stays in range. -/
theorem slide_step_right_sum (l : List Tile) (m : Bool) (t fuel : Nat)
    (hb : t + fuel < l.length) :
    line_sum (slide_step_right l m t fuel).1 = line_sum l := by
  induction fuel generalizing l m t with
  | zero => rfl
  | succ fuel ih =>
    by_cases hc : (l.getD (t + 1) Tile.empty).is_empty = true
    · rw [slide_step_right, if_pos hc,
        ih _ _ _ (by simp only [List.length_set]; omega)]
      exact slide_swap_sum_right l t (by omega) hc
    · rw [slide_step_right, if_neg hc]

/-- The rightward compaction pass conserves the sum. -/
theorem compact_pass_right_sum (l : List Tile) (m : Bool) :
    line_sum (compact_pass_right l m).1 = line_sum l := by
  unfold compact_pass_right
  have h := foldl_preserve
    (fun acc col =>
      if !(acc.1.getD col Tile.empty).is_empty then
        slide_step_right acc.1 acc.2 col (acc.1.length - 1 - col)
      else acc)
    (fun acc : List Tile × Bool => line_sum acc.1 = line_sum l ∧ acc.1.length = l.length)
    ((List.range (l.length - 1)).reverse) (l, m) ⟨rfl, rfl⟩ ?_
  · exact h.1
  · intro b c hc hb
    have hcr : c < l.length - 1 := List.mem_range.mp (List.mem_reverse.mp hc)
    dsimp only at hb ⊢
    by_cases hcc : (!(b.1.getD c Tile.empty).is_empty) = true
    · rw [if_pos hcc]
      constructor
      · rw [slide_step_right_sum _ _ _ _ (by rw [hb.2]; omega)]
        exact hb.1
      · rw [slide_step_right_length]
        exact hb.2
    · rw [if_neg hcc]
      exact hb

/-- A successful can_merge_with between two getD reads bounds both
indices and equates the two nonzero values. -/
theorem can_merge_getD_bounds (l : List Tile) (i j : Nat)
    (h : (l.getD i Tile.empty).can_merge_with (l.getD j Tile.empty) = true) :
    i < l.length ∧ j < l.length ∧
    (l.getD i Tile.empty).value = (l.getD j Tile.empty).value ∧
    (l.getD i Tile.empty).value ≠ 0 := by
  rw [Tile.can_merge_with, Bool.and_eq_true, Bool.and_eq_true] at h
  obtain ⟨⟨ha, hb⟩, hc⟩ := h
  rw [Bool.not_eq_true'] at ha hb
  unfold Tile.is_empty at ha hb
  have ha' : (l.getD i Tile.empty).value ≠ 0 := by simpa using ha
  have hb' : (l.getD j Tile.empty).value ≠ 0 := by simpa using hb
  have hc' : (l.getD i Tile.empty).value = (l.getD j Tile.empty).value := by simpa using hc
  refine ⟨?_, ?_, hc', ha'⟩
  · by_contra hi
    rw [List.getD_eq_getElem?_getD, List.getElem?_eq_none (by omega)] at ha'
    exact ha' rfl
  · by_contra hj
    rw [List.getD_eq_getElem?_getD, List.getElem?_eq_none (by omega)] at hb'
    exact hb' rfl

/-- One forward merge step conserves the line sum. -/
theorem merge_step_sum (st : LineState) (c : Nat) :
    line_sum (merge_step st c).line = line_sum st.line := by
  unfold merge_step
  by_cases h1 : st.merged.getD c false = true
  · rw [if_pos h1]
  · rw [if_neg h1]
    by_cases h2 : (st.line.getD c Tile.empty).can_merge_with
        (st.line.getD (c + 1) Tile.empty) = true
    · rw [if_pos h2]
      dsimp only
      rw [Tile.merge_with, if_pos h2]
      dsimp only
      obtain ⟨hc, hc1, heq, hne⟩ := can_merge_getD_bounds _ _ _ h2
      have he0 : Tile.empty.value = 0 := rfl
      have hA := line_sum_set st.line c
        ⟨(st.line.getD c Tile.empty).value * 2⟩ hc
      have hB := line_sum_set
        (st.line.set c ⟨(st.line.getD c Tile.empty).value * 2⟩) (c + 1) Tile.empty
        (by simpa using hc1)
      have h3 : (st.line.set c ⟨(st.line.getD c Tile.empty).value * 2⟩).getD (c + 1)
          Tile.empty = st.line.getD (c + 1) Tile.empty := by
        rw [List.getD_eq_getElem?_getD, List.getElem?_set_ne (by omega),
          ← List.getD_eq_getElem?_getD]
      rw [h3, ← heq] at hB
      dsimp only at hA hB
      omega
    · rw [if_neg h2]

/-- One backward merge step (at position ≥ 1) conserves the line sum. -/
theorem merge_step_right_sum (st : LineState) (c : Nat) (hge : 1 ≤ c) :
    line_sum (merge_step_right st c).line = line_sum st.line := by
  unfold merge_step_right
  by_cases h1 : st.merged.getD c false = true
  · rw [if_pos h1]
  · rw [if_neg h1]
    by_cases h2 : (st.line.getD c Tile.empty).can_merge_with
        (st.line.getD (c - 1) Tile.empty) = true
    · rw [if_pos h2]
      dsimp only
      rw [Tile.merge_with, if_pos h2]
      dsimp only
      obtain ⟨hc, hc1, heq, hne⟩ := can_merge_getD_bounds _ _ _ h2
      have he0 : Tile.empty.value = 0 := rfl
      have hA := line_sum_set st.line c
        ⟨(st.line.getD c Tile.empty).value * 2⟩ hc
      have hB := line_sum_set
        (st.line.set c ⟨(st.line.getD c Tile.empty).value * 2⟩) (c - 1) Tile.empty
        (by simpa using hc1)
      have h3 : (st.line.set c ⟨(st.line.getD c Tile.empty).value * 2⟩).getD (c - 1)
          Tile.empty = st.line.getD (c - 1) Tile.empty := by
        rw [List.getD_eq_getElem?_getD, List.getElem?_set_ne (by omega),
          ← List.getD_eq_getElem?_getD]
      rw [h3, ← heq] at hB
      dsimp only at hA hB
      omega
    · rw [if_neg h2]

/-- The forward merge pass conserves the line sum. -/
theorem merge_pass_forward_sum (l : List Tile) (s : Score) (m : Bool) :
    line_sum (merge_pass_forward l s m).line = line_sum l := by
  unfold merge_pass_forward
  refine foldl_preserve _ (fun st : LineState => line_sum st.line = line_sum l) _ _ rfl ?_
  intro st c _ hst
  rw [merge_step_sum]
  exact hst

/-- The backward merge pass conserves the line sum. -/
theorem merge_pass_backward_sum (l : List Tile) (s : Score) (m : Bool) :
    line_sum (merge_pass_backward l s m).line = line_sum l := by
  unfold merge_pass_backward
  refine foldl_preserve _ (fun st : LineState => line_sum st.line = line_sum l) _ _ rfl ?_
  intro st c hc hst
  have hge : 1 ≤ c := (List.mem_range'_1.mp (List.mem_reverse.mp hc)).1
  rw [merge_step_right_sum _ _ hge]
  exact hst

/-- Score::add_merge_points records the awarded points in last_move. -/
theorem add_merge_points_last (s : Score) (v : Nat) :
    (s.add_merge_points v).last_move = v := by
  simp only [Score.add_merge_points]
  split <;> rfl

/-- Score::add_merge_points adds the awarded points to current. -/
theorem add_merge_points_current (s : Score) (v : Nat) :
    (s.add_merge_points v).current = s.current + v := by
  simp only [Score.add_merge_points]
  split <;> rfl

/-- Folding add_merge_points over a log adds the log's sum to current. -/
theorem foldl_add_merge_current (log : List Nat) (s : Score) :
    (log.foldl Score.add_merge_points s).current = s.current + log.sum := by
  induction log generalizing s with
  | nil => simp
  | cons v vs ih =>
    rw [List.foldl_cons, ih, add_merge_points_current, List.sum_cons]
    omega

/-- Folding add_merge_points over a log leaves the last event's points
in last_move, or the previous last_move for an empty log. -/
theorem foldl_add_merge_last (log : List Nat) (s : Score) :
    (log.foldl Score.add_merge_points s).last_move = log.getLast?.getD s.last_move := by
  induction log using List.reverseRecOn with
  | nil => rfl
  | append_singleton vs v _ =>
    rw [List.foldl_append, List.foldl_cons, List.foldl_nil, add_merge_points_last,
      List.getLast?_concat]
    rfl

/-- The forward merge pass threads the score exactly as the fold of
Score::add_merge_points over its log of merge events. -/
theorem merge_pass_forward_score (l : List Tile) (s : Score) (m : Bool) :
    (merge_pass_forward l s m).score =
      (merge_pass_forward l s m).log.foldl Score.add_merge_points s := by
  unfold merge_pass_forward
  refine foldl_preserve _
    (fun st : LineState => st.score = st.log.foldl Score.add_merge_points s) _ _ rfl ?_
  intro st c _ hst
  unfold merge_step
  by_cases h1 : st.merged.getD c false = true
  · rw [if_pos h1]
    exact hst
  · rw [if_neg h1]
    by_cases h2 : (st.line.getD c Tile.empty).can_merge_with
        (st.line.getD (c + 1) Tile.empty) = true
    · rw [if_pos h2]
      dsimp only
      rw [List.foldl_append, ← hst]
      rfl
    · rw [if_neg h2]
      exact hst

/-- The backward merge pass threads the score exactly as the fold of
Score::add_merge_points over its log of merge events. -/
theorem merge_pass_backward_score (l : List Tile) (s : Score) (m : Bool) :
    (merge_pass_backward l s m).score =
      (merge_pass_backward l s m).log.foldl Score.add_merge_points s := by
  unfold merge_pass_backward
  refine foldl_preserve _
    (fun st : LineState => st.score = st.log.foldl Score.add_merge_points s) _ _ rfl ?_
  intro st c _ hst
  unfold merge_step_right
  by_cases h1 : st.merged.getD c false = true
  · rw [if_pos h1]
    exact hst
  · rw [if_neg h1]
    by_cases h2 : (st.line.getD c Tile.empty).can_merge_with
        (st.line.getD (c - 1) Tile.empty) = true
    · rw [if_pos h2]
      dsimp only
      rw [List.foldl_append, ← hst]
      rfl
    · rw [if_neg h2]
      exact hst

/-- The full forward line collapse conserves the line sum. -/
theorem merge_line_forward_sum (l : List Tile) (s : Score) :
    line_sum (merge_line_forward l s).line = line_sum l := by
  simp only [merge_line_forward]
  rw [compact_pass_sum, merge_pass_forward_sum, compact_pass_sum]

/-- The full backward line collapse conserves the line sum. -/
theorem merge_line_backward_sum (l : List Tile) (s : Score) :
    line_sum (merge_line_backward l s).line = line_sum l := by
  simp only [merge_line_backward]
  rw [compact_pass_right_sum, merge_pass_backward_sum, compact_pass_right_sum]

/-- The full forward line collapse threads the score as the fold of its
log. -/
theorem merge_line_forward_score (l : List Tile) (s : Score) :
    (merge_line_forward l s).score =
      (merge_line_forward l s).log.foldl Score.add_merge_points s := by
  simp only [merge_line_forward]
  exact merge_pass_forward_score _ _ _

/-- The full backward line collapse threads the score as the fold of its
log. -/
theorem merge_line_backward_score (l : List Tile) (s : Score) :
    (merge_line_backward l s).score =
      (merge_line_backward l s).log.foldl Score.add_merge_points s := by
  simp only [merge_line_backward]
  exact merge_pass_backward_score _ _ _

/-- C3 (amended): each directional three-pass collapse (compact, merge,
re-compact) conserves the sum of the tile values on the line exactly;
the points awarded for the line are the logged merge values, which are
added to score.current — they are not the difference of the line sums,
which is zero. -/
theorem merge_line_sum_conserved (l : List Tile) (s : Score) :
    line_sum (merge_line_forward l s).line = line_sum l ∧
    (merge_line_forward l s).score.current =
      s.current + (merge_line_forward l s).log.sum ∧
    line_sum (merge_line_backward l s).line = line_sum l ∧
    (merge_line_backward l s).score.current =
      s.current + (merge_line_backward l s).log.sum := by
  refine ⟨merge_line_forward_sum l s, ?_, merge_line_backward_sum l s, ?_⟩
  · rw [merge_line_forward_score, foldl_add_merge_current]
  · rw [merge_line_backward_score, foldl_add_merge_current]

/-- Counterexample to C3 as stated: collapsing the line [2,2] awards 4
points, and the sum after the three passes (4) equals the sum before
(4); it does not equal the sum before plus the points (8). -/
theorem merge_line_sum_plus_points_cex :
    line_sum (merge_line_forward [⟨2⟩, ⟨2⟩] Score.new).line = 4 ∧
    line_sum [(⟨2⟩ : Tile), ⟨2⟩] = 4 ∧
    (merge_line_forward [⟨2⟩, ⟨2⟩] Score.new).log.sum = 4 ∧
    ¬ (line_sum (merge_line_forward [⟨2⟩, ⟨2⟩] Score.new).line =
        line_sum [(⟨2⟩ : Tile), ⟨2⟩] +
          (merge_line_forward [⟨2⟩, ⟨2⟩] Score.new).log.sum) :=
  ⟨by decide, by decide, by decide, by decide⟩

/-- Game::perform_move threads the score exactly as the fold of
Score::add_merge_points over the move's log of merge events. -/
theorem perform_move_score (b : Board) (s : Score) (d : Direction) :
    (perform_move b s d).score =
      (perform_move b s d).log.foldl Score.add_merge_points s := by
  cases d with
  | Left =>
    simp only [perform_move]
    refine foldl_preserve _
      (fun st : MoveState => st.score = st.log.foldl Score.add_merge_points s) _ _ rfl ?_
    intro st c _ hst
    simp only [merge_row_left]
    rw [List.foldl_append, ← hst]
    exact merge_line_forward_score _ _
  | Right =>
    simp only [perform_move]
    refine foldl_preserve _
      (fun st : MoveState => st.score = st.log.foldl Score.add_merge_points s) _ _ rfl ?_
    intro st c _ hst
    simp only [merge_row_right]
    rw [List.foldl_append, ← hst]
    exact merge_line_backward_score _ _
  | Up =>
    simp only [perform_move]
    refine foldl_preserve _
      (fun st : MoveState => st.score = st.log.foldl Score.add_merge_points s) _ _ rfl ?_
    intro st c _ hst
    simp only [merge_col_up]
    rw [List.foldl_append, ← hst]
    exact merge_line_forward_score _ _
  | Down =>
    simp only [perform_move]
    refine foldl_preserve _
      (fun st : MoveState => st.score = st.log.foldl Score.add_merge_points s) _ _ rfl ?_
    intro st c _ hst
    simp only [merge_col_down]
    rw [List.foldl_append, ← hst]
    exact merge_line_backward_score _ _

/-- C8 (amended): after a make_move that moved, last_move equals the
points of the move's most recent merge event when the move merged
anything; when the move merged nothing, last_move retains its previous
value — it is not reset to 0. -/
theorem last_move_tracks_latest_merge (g : Game) (d : Direction) (g' : Game)
    (h : make_move g d = .ok (true, g')) :
    g'.score.last_move =
      ((perform_move g.board g.score d).log.getLast?).getD g.score.last_move := by
  simp only [make_move] at h
  by_cases hs : g.state ≠ GameState.Playing
  · rw [if_pos hs] at h
    exact Except.noConfusion h
  · rw [if_neg hs] at h
    by_cases hu : g.config.allow_undo = true
    · rw [if_pos hu] at h
      dsimp only at h
      split at h
      · obtain ⟨g3, hg3, hf⟩ := except_map_ok _ _ _ h
        have hf2 : update_game_state g3 = g' := congrArg Prod.snd hf
        have hfr := add_random_tile_frame _ _ hg3
        subst hf2
        have hs1 : (update_game_state g3).score = (perform_move g.board g.score d).score := by
          rw [(update_game_state_frame g3).2.1, hfr.1]
        rw [hs1, perform_move_score, foldl_add_merge_last]
      · injection h with h1
        injection h1 with h2 h3
        exact Bool.noConfusion h2
    · rw [if_neg hu] at h
      split at h
      · obtain ⟨g3, hg3, hf⟩ := except_map_ok _ _ _ h
        have hf2 : update_game_state g3 = g' := congrArg Prod.snd hf
        have hfr := add_random_tile_frame _ _ hg3
        subst hf2
        have hs1 : (update_game_state g3).score = (perform_move g.board g.score d).score := by
          rw [(update_game_state_frame g3).2.1, hfr.1]
        rw [hs1, perform_move_score, foldl_add_merge_last]
      · injection h with h1
        injection h1 with h2 h3
        exact Bool.noConfusion h2

/-- A concrete Playing game whose last move merged for 4 points and on
which a Right move slides without merging. -/
def g8c : Game :=
  { board := { tiles := [[⟨4⟩, ⟨0⟩, ⟨0⟩], [⟨0⟩, ⟨0⟩, ⟨0⟩], [⟨0⟩, ⟨0⟩, ⟨2⟩]], size := 3 },
    score := ⟨4, 4, 4⟩, rng := rng0,
    config := { board_size := 3, target_score := 2048, allow_undo := false, seed := none },
    state := .Playing, moves := 1, previous_board := none, previous_score := none }

/-- Counterexample to C8 as stated: on g8c the Right move moves a tile
but merges nothing (its merge log is empty), yet last_move afterwards
is still 4, not 0. -/
theorem last_move_not_reset_cex :
    (make_move g8c .Right).map (fun p => p.1) = .ok true ∧
    (perform_move g8c.board g8c.score .Right).log = [] ∧
    (make_move g8c .Right).map (fun p => p.2.score.last_move) = .ok 4 ∧
    (4 : Nat) ≠ 0 :=
  ⟨rfl, rfl, rfl, by decide⟩

/-- A concrete game whose Left move merges for 4 points. -/
def g8w : Game :=
  { board := { tiles := [[⟨2⟩, ⟨2⟩], [⟨0⟩, ⟨0⟩]], size := 2 }, score := ⟨10, 20, 2⟩,
    rng := rng0,
    config := { board_size := 2, target_score := 2048, allow_undo := false, seed := none },
    state := .Playing, moves := 0, previous_board := none, previous_score := none }

/-- The game g8w's make_move Left result. -/
def g8wres : Game := ((make_move g8w .Left).toOption.getD (false, g8w)).2

/-- Witness for C8 (amended) at the concrete game g8w. -/
theorem last_move_tracks_latest_merge_witness :
    g8wres.score.last_move =
      ((perform_move g8w.board g8w.score .Left).log.getLast?).getD g8w.score.last_move :=
  last_move_tracks_latest_merge g8w .Left g8wres (by rfl)

set_option maxHeartbeats 1600000 in
/-- C4: in a single directional collapse (the per-line operation every
make_move applies), no tile merges more than once: a line v,v,v
collapsed toward an edge yields 2v then a leftover v (never 4v), and
v,v,w,w yields 2v,2w — two independent merges, each tile merging at
most once.  The claim's examples are the instances v = 2, w = 4. -/
theorem merge_at_most_once (v w : Nat) (hv : v ≠ 0) (hw : w ≠ 0) :
    (merge_line_forward [⟨v⟩, ⟨v⟩, ⟨v⟩, ⟨0⟩] Score.new).line = [⟨v * 2⟩, ⟨v⟩, ⟨0⟩, ⟨0⟩] ∧
    (merge_line_forward [⟨v⟩, ⟨v⟩, ⟨w⟩, ⟨w⟩] Score.new).line = [⟨v * 2⟩, ⟨w * 2⟩, ⟨0⟩, ⟨0⟩] ∧
    (merge_line_backward [⟨v⟩, ⟨v⟩, ⟨v⟩, ⟨0⟩] Score.new).line = [⟨0⟩, ⟨0⟩, ⟨v⟩, ⟨v * 2⟩] ∧
    (merge_line_backward [⟨v⟩, ⟨v⟩, ⟨w⟩, ⟨w⟩] Score.new).line = [⟨0⟩, ⟨0⟩, ⟨v * 2⟩, ⟨w * 2⟩] := by
  have hv2 : v * 2 ≠ 0 := by omega
  have hw2 : w * 2 ≠ 0 := by omega
  refine ⟨?_, ?_, ?_, ?_⟩
  · simp [merge_line_forward, compact_pass, merge_pass_forward, merge_step, slide_step,
      Tile.can_merge_with, Tile.is_empty, Tile.merge_with, Tile.empty, hv, hv2,
      List.range_succ, List.range']
  · simp [merge_line_forward, compact_pass, merge_pass_forward, merge_step, slide_step,
      Tile.can_merge_with, Tile.is_empty, Tile.merge_with, Tile.empty, hv, hw, hv2, hw2,
      List.range_succ, List.range']
  · simp [merge_line_backward, compact_pass_right, merge_pass_backward, merge_step_right,
      slide_step_right, Tile.can_merge_with, Tile.is_empty, Tile.merge_with, Tile.empty,
      hv, hv2, List.range_succ, List.range']
  · simp [merge_line_backward, compact_pass_right, merge_pass_backward, merge_step_right,
      slide_step_right, Tile.can_merge_with, Tile.is_empty, Tile.merge_with, Tile.empty,
      hv, hw, hv2, hw2, List.range_succ, List.range']

/-- Witness for C4 at the claim's own examples (v = 2, w = 4): 2,2,2
collapses to 4,2 and 2,2,4,4 to 4,8. -/
theorem merge_at_most_once_witness :
    (merge_line_forward [⟨2⟩, ⟨2⟩, ⟨2⟩, ⟨0⟩] Score.new).line = [⟨2 * 2⟩, ⟨2⟩, ⟨0⟩, ⟨0⟩] ∧
    (merge_line_forward [⟨2⟩, ⟨2⟩, ⟨4⟩, ⟨4⟩] Score.new).line = [⟨2 * 2⟩, ⟨4 * 2⟩, ⟨0⟩, ⟨0⟩] ∧
    (merge_line_backward [⟨2⟩, ⟨2⟩, ⟨2⟩, ⟨0⟩] Score.new).line = [⟨0⟩, ⟨0⟩, ⟨2⟩, ⟨2 * 2⟩] ∧
    (merge_line_backward [⟨2⟩, ⟨2⟩, ⟨4⟩, ⟨4⟩] Score.new).line = [⟨0⟩, ⟨0⟩, ⟨2 * 2⟩, ⟨4 * 2⟩] :=
  merge_at_most_once 2 4 (by decide) (by decide)

/-- getD into the left part of an append. -/
theorem getD_append_left' {α : Type _} (l l' : List α) (i : Nat) (d : α)
    (h : i < l.length) : (l ++ l').getD i d = l.getD i d := by
  rw [List.getD_eq_getElem?_getD, List.getElem?_append_left h, ← List.getD_eq_getElem?_getD]

/-- getD at the appended singleton. -/
theorem getD_concat_length {α : Type _} (l : List α) (x d : α) :
    (l ++ [x]).getD l.length d = x := by
  rw [List.getD_eq_getElem?_getD, List.getElem?_concat_length]
  rfl

/-- Summary of an MCTS node as read by the final selection step of
AIPlayer::mcts_move (src/core/src/ai.rs, struct MCTSNode): the visit
count and the move that created the child.  The f64 statistic
total_score never enters the final selection, so it is not modelled. -/
structure MCTSNode where
  visits : Nat
  last_move : Option Direction
deriving DecidableEq

/-- Rust's Iterator::max_by over the root children, comparing visit
counts: the accumulator survives only when strictly greater, so among
equal maxima the last element in iteration order is returned. -/
def max_by_visits (children : List MCTSNode) : Option MCTSNode :=
  children.foldl
    (fun acc x =>
      match acc with
      | none => some x
      | some m => if m.visits > x.visits then some m else some x)
    none

/-- The message of the no-children error of mcts_move. -/
def no_valid_moves_msg : String := "No valid moves"

/-- The move-selection tail of AIPlayer::mcts_move (src/core/src/ai.rs
lines 183-188): max_by on visits, ok_or InvalidOperation, and
unwrap_or(Up) on the stored move. -/
def mcts_best_move (children : List MCTSNode) : Except GameError Direction :=
  match max_by_visits children with
  | none => .error (.invalidOperation no_valid_moves_msg)
  | some c => .ok (c.last_move.getD Direction.Up)

/-- max_by_visits returns the last child attaining the maximal visit
count. -/
theorem max_by_visits_spec (children : List MCTSNode) (hne : children ≠ []) :
    ∃ i, i < children.length ∧
      max_by_visits children = some (children.getD i ⟨0, none⟩) ∧
      (∀ j, j < children.length →
        (children.getD j ⟨0, none⟩).visits ≤ (children.getD i ⟨0, none⟩).visits) ∧
      (∀ j, i < j → j < children.length →
        (children.getD j ⟨0, none⟩).visits < (children.getD i ⟨0, none⟩).visits) := by
  induction children using List.reverseRecOn with
  | nil => exact absurd rfl hne
  | append_singleton l x ih =>
    have hfold : max_by_visits (l ++ [x]) =
        (match max_by_visits l with
         | none => some x
         | some m => if m.visits > x.visits then some m else some x) := by
      unfold max_by_visits
      rw [List.foldl_append]
      rfl
    rcases eq_or_ne l [] with rfl | hl
    · refine ⟨0, by simp, ?_, ?_, ?_⟩
      · rw [hfold]
        rfl
      · intro j hj
        simp only [List.nil_append, List.length_singleton] at hj
        have hj0 : j = 0 := by omega
        rw [hj0]
      · intro j hij hj
        simp only [List.nil_append, List.length_singleton] at hj
        omega
    · obtain ⟨i, hi, hmax, hle, hlt⟩ := ih hl
      rw [hfold, hmax]
      dsimp only
      by_cases hgt : (l.getD i ⟨0, none⟩).visits > x.visits
      · rw [if_pos hgt]
        have hgi : (l ++ [x]).getD i ⟨0, none⟩ = l.getD i ⟨0, none⟩ :=
          getD_append_left' l [x] i ⟨0, none⟩ hi
        refine ⟨i, ?_, ?_, ?_, ?_⟩
        · rw [List.length_append]
          omega
        · rw [hgi]
        · intro j hj
          rw [List.length_append, List.length_singleton] at hj
          rw [hgi]
          by_cases hjl : j < l.length
          · rw [getD_append_left' l [x] j ⟨0, none⟩ hjl]
            exact hle j hjl
          · have hje : j = l.length := by omega
            rw [hje, getD_concat_length]
            omega
        · intro j hij hj
          rw [List.length_append, List.length_singleton] at hj
          rw [hgi]
          by_cases hjl : j < l.length
          · rw [getD_append_left' l [x] j ⟨0, none⟩ hjl]
            exact hlt j hij hjl
          · have hje : j = l.length := by omega
            rw [hje, getD_concat_length]
            omega
      · rw [if_neg hgt]
        have hgl : (l ++ [x]).getD l.length ⟨0, none⟩ = x := getD_concat_length l x ⟨0, none⟩
        refine ⟨l.length, ?_, ?_, ?_, ?_⟩
        · rw [List.length_append, List.length_singleton]
          omega
        · rw [hgl]
        · intro j hj
          rw [List.length_append, List.length_singleton] at hj
          rw [hgl]
          by_cases hjl : j < l.length
          · rw [getD_append_left' l [x] j ⟨0, none⟩ hjl]
            have := hle j hjl
            omega
          · have hje : j = l.length := by omega
            rw [hje, getD_concat_length]
        · intro j hij hj
          rw [List.length_append, List.length_singleton] at hj
          omega

/-- C9 (amended): when the iterations are done, mcts_move returns the
move of the root child with the highest visit count (not the highest
average score); among children with equal highest visit counts the LAST
one in iteration order wins (Rust's Iterator::max_by tie-breaking), and
with no children the result is the error InvalidOperation. -/
theorem mcts_selection_last_argmax (children : List MCTSNode) :
    (children = [] →
      mcts_best_move children = .error (.invalidOperation no_valid_moves_msg)) ∧
    (children ≠ [] → ∃ i, i < children.length ∧
      mcts_best_move children =
        .ok ((children.getD i ⟨0, none⟩).last_move.getD Direction.Up) ∧
      (∀ j, j < children.length →
        (children.getD j ⟨0, none⟩).visits ≤ (children.getD i ⟨0, none⟩).visits) ∧
      (∀ j, i < j → j < children.length →
        (children.getD j ⟨0, none⟩).visits < (children.getD i ⟨0, none⟩).visits)) := by
  constructor
  · intro h
    rw [h]
    rfl
  · intro hne
    obtain ⟨i, hi, hmax, hle, hlt⟩ := max_by_visits_spec children hne
    refine ⟨i, hi, ?_, hle, hlt⟩
    unfold mcts_best_move
    rw [hmax]

/-- Counterexample to C9 as stated: with two root children tied at one
visit each (moves Up then Down in iteration order), the selection
returns Down — the last tied child — not the first one (Up). -/
theorem mcts_tie_returns_last_cex :
    mcts_best_move [⟨1, some Direction.Up⟩, ⟨1, some Direction.Down⟩] =
      .ok Direction.Down ∧
    Direction.Down ≠ Direction.Up :=
  ⟨rfl, by decide⟩

/-- Witness for C9 (amended) at a concrete two-child root. -/
theorem mcts_selection_last_argmax_witness :
    ∃ i, i < ([⟨3, some Direction.Left⟩, ⟨1, some Direction.Down⟩] : List MCTSNode).length ∧
      mcts_best_move [⟨3, some Direction.Left⟩, ⟨1, some Direction.Down⟩] =
        .ok ((([⟨3, some Direction.Left⟩, ⟨1, some Direction.Down⟩] :
          List MCTSNode).getD i ⟨0, none⟩).last_move.getD Direction.Up) ∧
      (∀ j, j < ([⟨3, some Direction.Left⟩, ⟨1, some Direction.Down⟩] : List MCTSNode).length →
        (([⟨3, some Direction.Left⟩, ⟨1, some Direction.Down⟩] :
          List MCTSNode).getD j ⟨0, none⟩).visits ≤
        (([⟨3, some Direction.Left⟩, ⟨1, some Direction.Down⟩] :
          List MCTSNode).getD i ⟨0, none⟩).visits) ∧
      (∀ j, i < j →
        j < ([⟨3, some Direction.Left⟩, ⟨1, some Direction.Down⟩] : List MCTSNode).length →
        (([⟨3, some Direction.Left⟩, ⟨1, some Direction.Down⟩] :
          List MCTSNode).getD j ⟨0, none⟩).visits <
        (([⟨3, some Direction.Left⟩, ⟨1, some Direction.Down⟩] :
          List MCTSNode).getD i ⟨0, none⟩).visits) :=
  (mcts_selection_last_argmax [⟨3, some Direction.Left⟩, ⟨1, some Direction.Down⟩]).2
    (by decide)
